import Mathlib

/-!
Verification of the primecount core (partial sieve function `phi`, the
Deleglise-Rivat special-leaves machinery, and Gourdon's A+C square-free
descent) against its natural-language specification.

The C++ sources are shallowly embedded: pure functions become Lean
functions, imperative loops become structural recursion on an explicit
countdown (so that everything is executable and kernel-reducible), and
mutable arrays become functions updated pointwise or lists.  Machine
integers are modelled as `Nat`/`Int`; the claims under study concern
in-range behaviour, where 64/128-bit arithmetic is exact.

Collaborators whose code is not part of the provided sources
(`PhiTiny`, `PiTable`, `BitSieve`, the `tos_counters` Fenwick structure,
`generate_*`, `P2`, `S1`, `isqrt`/`iroot`) are modelled from the
specification's contracts; each such definition carries a doc comment
starting with `Modelled from the spec:`.
-/

namespace Primecount

/-! ## Prime-number groundwork

An executable primality test, the increasing enumeration of the primes
(1-indexed, with `primeSeq 0 = 0` playing the role of the `primes[0]`
sentinel of the C++ prime tables), and the prime counting function π. -/

/-- Executable primality test: `2 ≤ n` and no `d` with `2 ≤ d < n` divides `n`. -/
def isPrime (n : ℕ) : Bool :=
  decide (2 ≤ n) && (List.range n).all fun d => decide (d < 2) || decide (n % d ≠ 0)

theorem isPrime_iff {n : ℕ} : isPrime n = true ↔ n.Prime := by
  rw [Nat.prime_def_lt, isPrime]
  simp only [Bool.and_eq_true, List.all_eq_true, List.mem_range, Bool.or_eq_true,
    decide_eq_true_eq]
  constructor
  · rintro ⟨h2, hd⟩
    refine ⟨h2, fun m hm hdvd => ?_⟩
    have hm0 : m ≠ 0 := by
      rintro rfl
      have : n = 0 := Nat.eq_zero_of_zero_dvd hdvd
      omega
    rcases hd m hm with h | h
    · omega
    · obtain ⟨k, rfl⟩ := hdvd
      exact absurd (Nat.mul_mod_right m k) h
  · rintro ⟨h2, hd⟩
    refine ⟨h2, fun d hdn => ?_⟩
    by_cases hd2 : d < 2
    · exact Or.inl hd2
    · refine Or.inr fun hmod => ?_
      have hdvd : d ∣ n := Nat.dvd_of_mod_eq_zero hmod
      have := hd d hdn hdvd
      omega

/-- Search upward from `c` for the first prime, with explicit fuel. -/
def findPrimeAbove : ℕ → ℕ → ℕ
  | 0, _ => 0
  | fuel + 1, c => if isPrime c then c else findPrimeAbove fuel (c + 1)

/-- Least prime strictly greater than `p`.  The fuel `p + 3` is enough by
Bertrand's postulate. -/
def nextPrime (p : ℕ) : ℕ := findPrimeAbove (p + 3) (p + 1)

theorem findPrimeAbove_spec {fuel c q : ℕ} (hq : isPrime q = true) (hcq : c ≤ q)
    (hfuel : q < c + fuel) :
    isPrime (findPrimeAbove fuel c) = true ∧ c ≤ findPrimeAbove fuel c ∧
      findPrimeAbove fuel c ≤ q ∧
      ∀ r, c ≤ r → r < findPrimeAbove fuel c → isPrime r = false := by
  induction fuel generalizing c with
  | zero => exact absurd hfuel (by omega)
  | succ fuel ih =>
    rw [findPrimeAbove]
    by_cases hc : isPrime c = true
    · rw [if_pos hc]
      exact ⟨hc, le_refl c, hcq, fun r h1 h2 => absurd (lt_of_le_of_lt h1 h2) (lt_irrefl c)⟩
    · rw [if_neg hc]
      have hcq' : c + 1 ≤ q := by
        rcases Nat.eq_or_lt_of_le hcq with rfl | h
        · exact absurd hq hc
        · omega
      obtain ⟨h1, h2, h3, h4⟩ := ih hcq' (by omega)
      refine ⟨h1, by omega, h3, fun r hr1 hr2 => ?_⟩
      rcases Nat.eq_or_lt_of_le hr1 with rfl | h
      · simpa using hc
      · exact h4 r (by omega) hr2

theorem nextPrime_spec (p : ℕ) :
    isPrime (nextPrime p) = true ∧ p < nextPrime p ∧
      ∀ r, p < r → r < nextPrime p → isPrime r = false := by
  simp only [nextPrime]
  obtain ⟨q, hq, hpq, hq2⟩ : ∃ q, Nat.Prime q ∧ p < q ∧ q ≤ p + p + 2 := by
    rcases Nat.eq_zero_or_pos p with rfl | hp
    · exact ⟨2, Nat.prime_two, by omega, by omega⟩
    · obtain ⟨q, hq, h1, h2⟩ := Nat.exists_prime_lt_and_le_two_mul p (by omega)
      exact ⟨q, hq, h1, by omega⟩
  obtain ⟨h1, h2, _h3, h4⟩ := @findPrimeAbove_spec (p + 3) (p + 1) q
    (isPrime_iff.mpr hq) (by omega) (by omega)
  exact ⟨h1, by omega, fun r hr1 hr2 => h4 r (by omega) hr2⟩

/-- The increasing enumeration of the primes, 1-indexed: `primeSeq 1 = 2`,
`primeSeq 2 = 3`, ….  `primeSeq 0 = 0` models the `primes[0]` sentinel of the
C++ prime tables. -/
def primeSeq : ℕ → ℕ
  | 0 => 0
  | k + 1 => nextPrime (primeSeq k)

/-- The prime counting function π(n): number of primes ≤ n. -/
def primeCount (n : ℕ) : ℕ := (List.range (n + 1)).countP isPrime

theorem primeSeq_prime {k : ℕ} (hk : 1 ≤ k) : isPrime (primeSeq k) = true := by
  cases k with
  | zero => omega
  | succ k => exact (nextPrime_spec (primeSeq k)).1

theorem primeSeq_lt_succ (k : ℕ) : primeSeq k < primeSeq (k + 1) :=
  (nextPrime_spec (primeSeq k)).2.1

theorem primeSeq_strictMono : StrictMono primeSeq :=
  strictMono_nat_of_lt_succ primeSeq_lt_succ

theorem primeSeq_no_prime_between {k r : ℕ} (h1 : primeSeq k < r)
    (h2 : r < primeSeq (k + 1)) : isPrime r = false :=
  (nextPrime_spec (primeSeq k)).2.2 r h1 h2

theorem primeSeq_two_le {k : ℕ} (hk : 1 ≤ k) : 2 ≤ primeSeq k := by
  have := isPrime_iff.mp (primeSeq_prime hk)
  exact this.two_le

theorem primeCount_succ (n : ℕ) :
    primeCount (n + 1) = primeCount n + (if isPrime (n + 1) then 1 else 0) := by
  simp only [primeCount, List.range_succ, List.countP_append, List.countP_cons,
    List.countP_nil]
  split <;> simp_all

theorem primeCount_zero : primeCount 0 = 0 := by decide

theorem primeCount_mono : Monotone primeCount := by
  intro a b hab
  exact List.Sublist.countP_le _ (List.range_sublist.mpr (by omega))

/-- No primes strictly inside `(a, b]` means π is constant there. -/
theorem primeCount_gap {a b : ℕ} (hab : a ≤ b)
    (h : ∀ r, a < r → r ≤ b → isPrime r = false) : primeCount b = primeCount a := by
  induction b with
  | zero => rw [Nat.le_zero.mp hab]
  | succ b ih =>
    rcases Nat.eq_or_lt_of_le hab with rfl | hlt
    · rfl
    · rw [primeCount_succ, h (b + 1) (by omega) (le_refl _), if_neg (by simp)]
      simpa using ih (by omega) fun r h1 h2 => h r h1 (by omega)

theorem primeCount_primeSeq (k : ℕ) : primeCount (primeSeq k) = k := by
  induction k with
  | zero => exact primeCount_zero
  | succ k ih =>
    have hlt := primeSeq_lt_succ k
    have h2 : 2 ≤ primeSeq (k + 1) := primeSeq_two_le (by omega)
    have hgap : primeCount (primeSeq (k + 1) - 1) = primeCount (primeSeq k) :=
      primeCount_gap (by omega) fun r h1 h2' => primeSeq_no_prime_between h1 (by omega)
    have hone : primeSeq (k + 1) - 1 + 1 = primeSeq (k + 1) := by omega
    have hstep := primeCount_succ (primeSeq (k + 1) - 1)
    rw [if_pos (by rw [hone]; exact primeSeq_prime (by omega)), hone, hgap, ih] at hstep
    omega

theorem primeCount_primeSeq_sub_one {k : ℕ} (hk : 1 ≤ k) :
    primeCount (primeSeq k - 1) = k - 1 := by
  have h2 := primeSeq_two_le hk
  have hstep : primeSeq k = (primeSeq k - 1) + 1 := by omega
  have := primeCount_primeSeq k
  rw [hstep, primeCount_succ, if_pos (by rw [← hstep]; exact primeSeq_prime hk)] at this
  omega

/-- The k-th prime is ≤ n iff there are at least k primes ≤ n. -/
theorem primeSeq_le_iff {k n : ℕ} : primeSeq k ≤ n ↔ k ≤ primeCount n := by
  constructor
  · intro h
    calc k = primeCount (primeSeq k) := (primeCount_primeSeq k).symm
    _ ≤ primeCount n := primeCount_mono h
  · intro h
    by_contra hlt
    push_neg at hlt
    rcases Nat.eq_zero_or_pos k with rfl | hk
    · have h0 : primeSeq 0 = 0 := rfl
      omega
    have : primeCount n ≤ primeCount (primeSeq k - 1) := primeCount_mono (by omega)
    rw [primeCount_primeSeq_sub_one hk] at this
    omega

theorem primeCount_lt_iff {k n : ℕ} : primeCount n < k ↔ n < primeSeq k := by
  rw [← Nat.not_le, ← Nat.not_le, not_iff_not]
  exact primeSeq_le_iff.symm

/-- Every prime is `primeSeq` of its own π-index. -/
theorem primeSeq_primeCount {q : ℕ} (hq : isPrime q = true) :
    primeSeq (primeCount q) = q := by
  have hq2 : 2 ≤ q := (isPrime_iff.mp hq).two_le
  have hk1 : 1 ≤ primeCount q := by
    have : primeSeq 1 ≤ q := by
      have h12 : primeSeq 1 = 2 := by decide
      omega
    exact primeSeq_le_iff.mp this
  have hle : primeSeq (primeCount q) ≤ q := primeSeq_le_iff.mpr (le_refl _)
  rcases Nat.eq_or_lt_of_le hle with h | h
  · exact h
  · exfalso
    have hq_lt : q < primeSeq (primeCount q + 1) := by
      by_contra hc
      push_neg at hc
      have := primeSeq_le_iff.mp hc
      omega
    have := primeSeq_no_prime_between h hq_lt
    rw [hq] at this
    exact Bool.noConfusion this

theorem primeCount_lt_of_lt_primeSeq {n k : ℕ} (h : n < primeSeq k) :
    primeCount n < k := primeCount_lt_iff.mpr h

/-- A prime strictly above the a-th prime is at least the (a+1)-st prime. -/
theorem primeSeq_succ_le_of_prime_gt {q a : ℕ} (hq : isPrime q = true)
    (h : primeSeq a < q) : primeSeq (a + 1) ≤ q := by
  refine primeSeq_le_iff.mpr ?_
  by_contra hc
  push_neg at hc
  have : q = primeSeq (primeCount q) := (primeSeq_primeCount hq).symm
  have := primeSeq_strictMono.le_iff_le.mpr (show primeCount q ≤ a by omega)
  omega

/-! ## The partial sieve function φ(x, a)

`legendrePhi x a` is the mathematical specification: the number of integers
in `[1, x]` divisible by none of the first `a` primes. -/

/-- `coprimeFirst a m`: `m` is not divisible by any of the first `a` primes. -/
def coprimeFirst (a m : ℕ) : Prop := ∀ j, 1 ≤ j → j ≤ a → ¬ primeSeq j ∣ m

instance coprimeFirstDec (a m : ℕ) : Decidable (coprimeFirst a m) :=
  decidable_of_iff (∀ j, j < a → ¬ primeSeq (j + 1) ∣ m) (by
    constructor
    · intro h j h1 h2
      have hj : j - 1 + 1 = j := by omega
      have := h (j - 1) (by omega)
      rwa [hj] at this
    · intro h j hj
      exact h (j + 1) (by omega) (by omega))

/-- The partial sieve function (Legendre sum) φ(x, a). -/
def legendrePhi (x a : ℕ) : ℕ :=
  ((Finset.Icc 1 x).filter (fun m => coprimeFirst a m)).card

theorem legendrePhi_a_zero (x : ℕ) : legendrePhi x 0 = x := by
  rw [legendrePhi]
  have : (Finset.Icc 1 x).filter (fun m => coprimeFirst 0 m) = Finset.Icc 1 x := by
    refine Finset.filter_true_of_mem fun m _ => ?_
    intro j h1 h2
    omega
  rw [this, Nat.card_Icc]
  omega

theorem legendrePhi_x_zero (a : ℕ) : legendrePhi 0 a = 0 := by
  rw [legendrePhi]
  have : Finset.Icc 1 0 = (∅ : Finset ℕ) := rfl
  rw [this, Finset.filter_empty, Finset.card_empty]

theorem coprimeFirst_one (a : ℕ) : coprimeFirst a 1 := by
  intro j h1 h2 hdvd
  have := primeSeq_two_le h1
  have := Nat.le_of_dvd (by omega) hdvd
  omega

theorem coprimeFirst_succ {a m : ℕ} :
    coprimeFirst (a + 1) m ↔ coprimeFirst a m ∧ ¬ primeSeq (a + 1) ∣ m := by
  constructor
  · intro h
    exact ⟨fun j h1 h2 => h j h1 (by omega), h (a + 1) (by omega) (le_refl _)⟩
  · rintro ⟨h1, h2⟩ j hj1 hj2
    rcases Nat.eq_or_lt_of_le hj2 with rfl | h
    · exact h2
    · exact h1 j hj1 (by omega)

/-- Survivors of the first `a` primes have all prime factors above `primeSeq a`. -/
theorem coprimeFirst_iff_forall_prime {a m : ℕ} :
    coprimeFirst a m ↔ ∀ p, isPrime p = true → p ∣ m → primeSeq a < p := by
  constructor
  · intro h p hp hdvd
    by_contra hc
    push_neg at hc
    have hk1 : 1 ≤ primeCount p := by
      have h2 : 2 ≤ p := (isPrime_iff.mp hp).two_le
      have : primeSeq 1 ≤ p := by
        have h12 : primeSeq 1 = 2 := by decide
        omega
      exact primeSeq_le_iff.mp this
    have hka : primeCount p ≤ a := by
      have := primeCount_mono hc
      rwa [primeCount_primeSeq] at this
    exact h (primeCount p) hk1 hka (by rw [primeSeq_primeCount hp]; exact hdvd)
  · intro h j h1 h2 hdvd
    have := h (primeSeq j) (primeSeq_prime h1) hdvd
    have := primeSeq_strictMono.le_iff_le.mpr h2
    omega

/-- φ(x, a) = 1 whenever `1 ≤ x < primeSeq (a+1)`: only the number 1 survives. -/
theorem legendrePhi_eq_one {x a : ℕ} (hx : 1 ≤ x) (hxa : x < primeSeq (a + 1)) :
    legendrePhi x a = 1 := by
  rw [legendrePhi]
  have hset : (Finset.Icc 1 x).filter (fun m => coprimeFirst a m) = {1} := by
    ext m
    simp only [Finset.mem_filter, Finset.mem_Icc, Finset.mem_singleton]
    constructor
    · rintro ⟨⟨h1, h2⟩, hcop⟩
      by_contra hne
      have hm2 : 2 ≤ m := by omega
      have hq := Nat.minFac_prime (by omega : m ≠ 1)
      have hqdvd := Nat.minFac_dvd m
      have := coprimeFirst_iff_forall_prime.mp hcop m.minFac (isPrime_iff.mpr hq) hqdvd
      have hge := primeSeq_succ_le_of_prime_gt (isPrime_iff.mpr hq) this
      have := Nat.minFac_le (by omega : 0 < m)
      omega
    · rintro rfl
      exact ⟨⟨le_refl 1, hx⟩, coprimeFirst_one a⟩
  rw [hset, Finset.card_singleton]

/-- φ(x, a) = 1 whenever `1 ≤ x` and `a ≥ π(x)`. -/
theorem legendrePhi_eq_one_of_count {x a : ℕ} (hx : 1 ≤ x)
    (ha : primeCount x ≤ a) : legendrePhi x a = 1 := by
  rw [legendrePhi]
  have hset : (Finset.Icc 1 x).filter (fun m => coprimeFirst a m) = {1} := by
    ext m
    simp only [Finset.mem_filter, Finset.mem_Icc, Finset.mem_singleton]
    constructor
    · rintro ⟨⟨h1, h2⟩, hcop⟩
      by_contra hne
      have hq := Nat.minFac_prime (by omega : m ≠ 1)
      have hqdvd := Nat.minFac_dvd m
      have hgt := coprimeFirst_iff_forall_prime.mp hcop m.minFac (isPrime_iff.mpr hq) hqdvd
      have hqle : m.minFac ≤ x := le_trans (Nat.minFac_le (by omega)) h2
      have : primeCount m.minFac ≤ a := le_trans (primeCount_mono hqle) ha
      have heq := primeSeq_primeCount (isPrime_iff.mpr hq)
      have := primeSeq_strictMono.le_iff_le.mpr this
      omega
    · rintro rfl
      exact ⟨⟨le_refl 1, hx⟩, coprimeFirst_one a⟩
  rw [hset, Finset.card_singleton]

/-- The fundamental recursion φ(x, a) = φ(x, a+1) + φ(x / p_{a+1}, a), stated
additively to avoid truncated subtraction. -/
theorem legendrePhi_rec (x a : ℕ) :
    legendrePhi x a = legendrePhi x (a + 1) + legendrePhi (x / primeSeq (a + 1)) a := by
  classical
  set p := primeSeq (a + 1) with hp_def
  have hpP : p.Prime := isPrime_iff.mp (primeSeq_prime (by omega))
  have hp2 : 2 ≤ p := hpP.two_le
  have hsplit := Finset.filter_card_add_filter_neg_card_eq_card
    (s := (Finset.Icc 1 x).filter (fun m => coprimeFirst a m)) (fun m => p ∣ m)
  have hleft : ((Finset.Icc 1 x).filter (fun m => coprimeFirst a m)).filter
      (fun m => ¬ p ∣ m) = (Finset.Icc 1 x).filter (fun m => coprimeFirst (a + 1) m) := by
    rw [Finset.filter_filter]
    refine Finset.filter_congr fun m _ => ?_
    exact coprimeFirst_succ.symm
  have hright : (((Finset.Icc 1 x).filter (fun m => coprimeFirst a m)).filter
      (fun m => p ∣ m)).card = legendrePhi (x / p) a := by
    rw [legendrePhi]
    refine Finset.card_nbij' (fun m => m / p) (fun t => p * t) ?_ ?_ ?_ ?_
    · intro m hm
      simp only [Finset.mem_filter, Finset.mem_Icc] at hm ⊢
      obtain ⟨⟨⟨h1, h2⟩, hcop⟩, hdvd⟩ := hm
      refine ⟨⟨?_, Nat.div_le_div_right h2⟩, ?_⟩
      · have := Nat.le_of_dvd (by omega) hdvd
        exact Nat.one_le_div_iff (by omega) |>.mpr this
      · intro j hj1 hj2 hjd
        exact hcop j hj1 hj2 (hjd.trans (Nat.div_dvd_of_dvd hdvd))
    · intro t ht
      simp only [Finset.mem_filter, Finset.mem_Icc] at ht ⊢
      obtain ⟨⟨h1, h2⟩, hcop⟩ := ht
      refine ⟨⟨⟨Nat.mul_pos (by omega) (by omega), ?_⟩, ?_⟩, Dvd.intro t rfl⟩
      · calc p * t ≤ p * (x / p) := Nat.mul_le_mul_left p h2
        _ ≤ x := Nat.mul_div_le x p
      · intro j hj1 hj2 hjd
        have hjP : (primeSeq j).Prime := isPrime_iff.mp (primeSeq_prime hj1)
        rcases (Nat.Prime.dvd_mul hjP).mp hjd with h | h
        · have : primeSeq j = p := (Nat.prime_dvd_prime_iff_eq hjP hpP).mp h
          have := primeSeq_strictMono.injective this
          omega
        · exact hcop j hj1 hj2 h
    · intro m hm
      simp only [Finset.mem_filter, Finset.mem_Icc] at hm
      exact Nat.mul_div_cancel' hm.2
    · intro t _
      exact Nat.mul_div_cancel_left t (by omega)
  have hfinal := hsplit
  rw [hleft, hright] at hfinal
  simp only [legendrePhi] at hfinal ⊢
  omega

/-- Bridge between the list-based π and interval filtering. -/
theorem primeCount_eq_card (n : ℕ) :
    primeCount n = ((Finset.Icc 1 n).filter (fun m => isPrime m = true)).card := by
  induction n with
  | zero => decide
  | succ n ih =>
    rw [primeCount_succ, ih, ← Nat.Icc_insert_succ_right (by omega : 1 ≤ n + 1),
      Finset.filter_insert]
    by_cases h : isPrime (n + 1) = true
    · rw [if_pos h, if_pos h, Finset.card_insert_of_not_mem (by
        simp only [Finset.mem_filter, Finset.mem_Icc]
        omega)]
    · rw [if_neg h, if_neg h]
      omega

/-- The π-lookup identity: if `π(√x) ≤ a ≤ π(x)` then φ(x, a) = π(x) − a + 1,
stated additively. -/
theorem legendrePhi_pix {x a : ℕ} (hx : 1 ≤ x) (hsq : primeCount (Nat.sqrt x) ≤ a)
    (hax : a ≤ primeCount x) :
    legendrePhi x a + a = primeCount x + 1 := by
  classical
  have hpax : primeSeq a ≤ x := primeSeq_le_iff.mpr hax
  have hset : (Finset.Icc 1 x).filter (fun m => coprimeFirst a m) =
      insert 1 ((Finset.Icc 1 x).filter (fun m => isPrime m = true ∧ primeSeq a < m)) := by
    ext m
    simp only [Finset.mem_filter, Finset.mem_Icc, Finset.mem_insert]
    constructor
    · rintro ⟨⟨h1, h2⟩, hcop⟩
      by_cases hm1 : m = 1
      · exact Or.inl hm1
      right
      have hq := Nat.minFac_prime (by omega : m ≠ 1)
      have hqdvd := Nat.minFac_dvd m
      have hgt := coprimeFirst_iff_forall_prime.mp hcop m.minFac (isPrime_iff.mpr hq) hqdvd
      have hmP : m.Prime := by
        by_contra hc
        have hsq2 : m.minFac * m.minFac ≤ x := by
          have := Nat.minFac_sq_le_self (by omega : 0 < m) hc
          have : m.minFac ^ 2 ≤ x := le_trans this h2
          nlinarith [this, sq (m.minFac)]
        have : m.minFac ≤ Nat.sqrt x := Nat.le_sqrt.mpr hsq2
        have hcnt : primeCount m.minFac ≤ a := le_trans (primeCount_mono this) hsq
        have heq := primeSeq_primeCount (isPrime_iff.mpr hq)
        have := primeSeq_strictMono.le_iff_le.mpr hcnt
        omega
      have : m.minFac = m := Nat.Prime.minFac_eq hmP
      exact ⟨⟨h1, h2⟩, isPrime_iff.mpr hmP, by omega⟩
    · rintro (rfl | ⟨⟨h1, h2⟩, hp, hgt⟩)
      · exact ⟨⟨le_refl 1, hx⟩, coprimeFirst_one a⟩
      refine ⟨⟨h1, h2⟩, coprimeFirst_iff_forall_prime.mpr fun q hq hqd => ?_⟩
      have : q = m := (Nat.prime_dvd_prime_iff_eq (isPrime_iff.mp hq) (isPrime_iff.mp hp)).mp hqd
      omega
  have hone_notmem : (1 : ℕ) ∉ (Finset.Icc 1 x).filter
      (fun m => isPrime m = true ∧ primeSeq a < m) := by
    simp [isPrime]
  have hsplit := Finset.filter_card_add_filter_neg_card_eq_card
    (s := (Finset.Icc 1 x).filter (fun m => isPrime m = true)) (fun m => primeSeq a < m)
  have hbig : ((Finset.Icc 1 x).filter (fun m => isPrime m = true)).filter
      (fun m => primeSeq a < m) =
      (Finset.Icc 1 x).filter (fun m => isPrime m = true ∧ primeSeq a < m) := by
    rw [Finset.filter_filter]
  have hsmall : ((Finset.Icc 1 x).filter (fun m => isPrime m = true)).filter
      (fun m => ¬ primeSeq a < m) =
      (Finset.Icc 1 (primeSeq a)).filter (fun m => isPrime m = true) := by
    ext m
    simp only [Finset.mem_filter, Finset.mem_Icc, not_lt]
    constructor
    · rintro ⟨⟨⟨h1, _⟩, hp⟩, hle⟩
      exact ⟨⟨h1, hle⟩, hp⟩
    · rintro ⟨⟨h1, hle⟩, hp⟩
      exact ⟨⟨⟨h1, le_trans hle hpax⟩, hp⟩, hle⟩
  rw [legendrePhi, hset, Finset.card_insert_of_not_mem hone_notmem]
  rw [hbig, hsmall, ← primeCount_eq_card, primeCount_primeSeq] at hsplit
  rw [← primeCount_eq_card] at hsplit
  omega

/-! ## PhiTiny

Modelled from the spec: closed-form φ(x, a) for small `a` via the periodicity
`φ(x, a) = ⌊x/P_a⌋·Φ(P_a) + φ(x mod P_a, a)` where `P_a` is the primorial and
`Φ(P_a) = ∏ (p_i − 1)`; the precomputed table holds `φ(r, a)` for
`r ∈ [0, P_a)`.  `PhiTiny::max_a()` is 7. -/

/-- Modelled from the spec: the primorial `P_a = ∏_{i ≤ a} primes[i]`. -/
def primorial : ℕ → ℕ
  | 0 => 1
  | a + 1 => primorial a * primeSeq (a + 1)

/-- Modelled from the spec: `Φ(P_a) = ∏_{i ≤ a} (primes[i] − 1)`. -/
def primorialTotient : ℕ → ℕ
  | 0 => 1
  | a + 1 => primorialTotient a * (primeSeq (a + 1) - 1)

/-- Modelled from the spec: `PhiTiny::max_a()`. -/
def phiTinyMaxA : ℕ := 7

/-- Modelled from the spec: `is_phi_tiny(a)` means `a ≤ PhiTiny::max_a()`. -/
def isPhiTiny (a : ℕ) : Bool := decide (a ≤ phiTinyMaxA)

/-- Modelled from the spec: `phi_tiny(x, a)` via primorial periodicity with a
table of `φ(r, a)` values for `r < P_a`. -/
def phiTiny (x a : ℕ) : ℕ :=
  (x / primorial a) * primorialTotient a + legendrePhi (x % primorial a) a

theorem primorial_pos (a : ℕ) : 0 < primorial a := by
  induction a with
  | zero => decide
  | succ a ih =>
    have := primeSeq_two_le (k := a + 1) (by omega)
    exact Nat.mul_pos ih (by omega)

theorem primeSeq_dvd_primorial {j a : ℕ} (h1 : 1 ≤ j) (h2 : j ≤ a) :
    primeSeq j ∣ primorial a := by
  induction a with
  | zero => omega
  | succ a ih =>
    by_cases hje : j = a + 1
    · subst hje
      exact ⟨primorial a, by rw [primorial]; ring⟩
    · exact dvd_mul_of_dvd_left (ih (by omega)) _

/-- Adding one full period `P` shifts φ additively, provided every one of the
first `a` primes divides `P`. -/
theorem legendrePhi_period_add {P a : ℕ} (hP : 0 < P)
    (hdvd : ∀ j, 1 ≤ j → j ≤ a → primeSeq j ∣ P) (x : ℕ) :
    legendrePhi (P + x) a = legendrePhi P a + legendrePhi x a := by
  classical
  have hunion : Finset.Icc 1 P ∪ Finset.Ioc P (P + x) = Finset.Icc 1 (P + x) := by
    ext m
    simp only [Finset.mem_union, Finset.mem_Icc, Finset.mem_Ioc]
    omega
  have hdisj : Disjoint (Finset.Icc 1 P) (Finset.Ioc P (P + x)) := by
    rw [Finset.disjoint_left]
    intro m hm hm'
    simp only [Finset.mem_Icc] at hm
    simp only [Finset.mem_Ioc] at hm'
    omega
  rw [legendrePhi, ← hunion, Finset.filter_union,
    Finset.card_union_of_disjoint (Finset.disjoint_filter_filter hdisj)]
  have hshift : ((Finset.Ioc P (P + x)).filter (fun m => coprimeFirst a m)).card =
      legendrePhi x a := by
    rw [legendrePhi]
    refine Finset.card_nbij' (fun m => m - P) (fun t => P + t) ?_ ?_ ?_ ?_
    · intro m hm
      simp only [Finset.mem_filter, Finset.mem_Ioc, Finset.mem_Icc] at hm ⊢
      obtain ⟨⟨h1, h2⟩, hcop⟩ := hm
      refine ⟨⟨by omega, by omega⟩, fun j hj1 hj2 hjd => ?_⟩
      refine hcop j hj1 hj2 ?_
      have hPj := hdvd j hj1 hj2
      have : m = P + (m - P) := by omega
      rw [this]
      exact Nat.dvd_add hPj hjd
    · intro t ht
      simp only [Finset.mem_filter, Finset.mem_Ioc, Finset.mem_Icc] at ht ⊢
      obtain ⟨⟨h1, h2⟩, hcop⟩ := ht
      refine ⟨⟨by omega, by omega⟩, fun j hj1 hj2 hjd => ?_⟩
      exact hcop j hj1 hj2 ((Nat.dvd_add_right (hdvd j hj1 hj2)).mp hjd)
    · intro m hm
      simp only [Finset.mem_filter, Finset.mem_Ioc] at hm
      show P + (m - P) = m
      omega
    · intro t _
      show P + t - P = t
      omega
  rw [hshift]
  simp only [legendrePhi]

theorem legendrePhi_period_mul {P a : ℕ} (hP : 0 < P)
    (hdvd : ∀ j, 1 ≤ j → j ≤ a → primeSeq j ∣ P) (q r : ℕ) :
    legendrePhi (q * P + r) a = q * legendrePhi P a + legendrePhi r a := by
  induction q with
  | zero => simp
  | succ q ih =>
    have : (q + 1) * P + r = P + (q * P + r) := by ring
    rw [this, legendrePhi_period_add hP hdvd, ih]
    ring

/-- φ over one full primorial period equals `Φ(P_a)`. -/
theorem legendrePhi_primorial (a : ℕ) :
    legendrePhi (primorial a) a = primorialTotient a := by
  induction a with
  | zero => decide
  | succ a ih =>
    have hp2 := primeSeq_two_le (k := a + 1) (by omega)
    have hP := primorial_pos a
    have hdiv : primorial (a + 1) / primeSeq (a + 1) = primorial a := by
      rw [primorial]
      exact Nat.mul_div_cancel _ (by omega)
    have hblocks : legendrePhi (primorial (a + 1)) a =
        primeSeq (a + 1) * legendrePhi (primorial a) a := by
      have hsplit : primorial (a + 1) = primeSeq (a + 1) * primorial a + 0 := by
        rw [primorial]; ring
      rw [hsplit, legendrePhi_period_mul hP (fun j h1 h2 => primeSeq_dvd_primorial h1 h2),
        legendrePhi_x_zero]
      omega
    have hrec := legendrePhi_rec (primorial (a + 1)) a
    rw [hdiv, hblocks, ih] at hrec
    rw [primorialTotient]
    have hexp : primorialTotient a * (primeSeq (a + 1) - 1) + primorialTotient a =
        primeSeq (a + 1) * primorialTotient a := by
      have h1 : (primeSeq (a + 1) - 1) + 1 = primeSeq (a + 1) := by omega
      calc primorialTotient a * (primeSeq (a + 1) - 1) + primorialTotient a
          = primorialTotient a * ((primeSeq (a + 1) - 1) + 1) := by ring
        _ = primeSeq (a + 1) * primorialTotient a := by rw [h1, Nat.mul_comm]
    omega

/-- `phi_tiny` agrees with φ (for every `a`; the implementation only tabulates
`a ≤ 7` but the periodicity identity is unconditional). -/
theorem phiTiny_eq (x a : ℕ) : phiTiny x a = legendrePhi x a := by
  have hP := primorial_pos a
  rw [phiTiny]
  conv_rhs => rw [show x = (x / primorial a) * primorial a + x % primorial a by
    rw [Nat.mul_comm]; exact (Nat.div_add_mod x (primorial a)).symm]
  rw [legendrePhi_period_mul hP (fun j h1 h2 => primeSeq_dvd_primorial h1 h2),
    legendrePhi_primorial]

/-! ## The PhiCache bit-packed mod-240 sieve cache

Embedding of `PhiCache` from `phi.cpp`.  A 64-bit sieve word is modelled as
its indicator function `ℕ → Bool` (bit `k`, `k < 64`); the `BitSieve240`
masks `unset_bit_` / `unset_larger_` (whose source is not provided) are
modelled from the spec as pointwise conjunctions with their defining
conditions.  Bit `k` of a window represents the integer
`j·240 + 30·(k/8) + offsets[k%8]` where the offsets are
`{1, 7, 11, 13, 17, 19, 23, 29}` (from the source comment in `init_cache`). -/

/-- Modelled from the spec: `isqrt(n)`, the largest k with k² ≤ n. -/
def isqrt (n : ℕ) : ℕ := Nat.sqrt n

/-- The eight wheel offsets coprime to {2, 3, 5} within a block of 30. -/
def wheelOffsets : List ℕ := [1, 7, 11, 13, 17, 19, 23, 29]

/-- Residue mod 240 represented by bit `k` of a sieve word. -/
def bitResidue (k : ℕ) : ℕ := 30 * (k / 8) + wheelOffsets.getD (k % 8) 0

/-- Index of the bit representing residue `r` (64 when `r` is not a wheel
residue). -/
def bitIndexOf (r : ℕ) : ℕ :=
  (((List.range 64).find? (fun k => bitResidue k == r)).getD 64)

/-- Population count of a 64-bit word. -/
def popcnt64 (w : ℕ → Bool) : ℕ := (List.range 64).countP w

/-- Modelled from the spec: `bits &= unset_bit_[r]` clears the bit whose
residue is `r` (no-op when `r` is not a wheel residue). -/
def applyUnsetBit (r : ℕ) (w : ℕ → Bool) : ℕ → Bool :=
  fun k => w k && !(bitResidue k == r)

/-- Modelled from the spec: `bits & unset_larger_[r]` keeps exactly the bits
whose residue is ≤ r. -/
def applyUnsetLarger (r : ℕ) (w : ℕ → Bool) : ℕ → Bool :=
  fun k => w k && decide (bitResidue k ≤ r)

theorem bitResidue_lt : ∀ k, k < 64 → bitResidue k < 240 := by
  decide

set_option maxRecDepth 4000 in
theorem bitResidue_inj : ∀ k1, k1 < 64 → ∀ k2, k2 < 64 →
    bitResidue k1 = bitResidue k2 → k1 = k2 := by
  decide

theorem bitResidue_coprime30 : ∀ k, k < 64 →
    bitResidue k % 2 ≠ 0 ∧ bitResidue k % 3 ≠ 0 ∧ bitResidue k % 5 ≠ 0 := by
  decide

set_option maxRecDepth 4000 in
theorem bitIndexOf_spec : ∀ r, r < 240 → r % 2 ≠ 0 → r % 3 ≠ 0 → r % 5 ≠ 0 →
    bitIndexOf r < 64 ∧ bitResidue (bitIndexOf r) = r := by
  decide

/-- The value represented by bit `k` of window `j`. -/
def bitValue (j k : ℕ) : ℕ := 240 * j + bitResidue k

/-- `coprimeFirst 3` is exactly coprimality to the wheel {2, 3, 5}. -/
theorem coprimeFirst_three_iff {m : ℕ} :
    coprimeFirst 3 m ↔ m % 2 ≠ 0 ∧ m % 3 ≠ 0 ∧ m % 5 ≠ 0 := by
  have h1 : primeSeq 1 = 2 := by decide
  have h2 : primeSeq 2 = 3 := by decide
  have h3 : primeSeq 3 = 5 := by decide
  constructor
  · intro h
    refine ⟨?_, ?_, ?_⟩
    · intro hc; exact h 1 (by omega) (by omega) (h1 ▸ Nat.dvd_of_mod_eq_zero hc)
    · intro hc; exact h 2 (by omega) (by omega) (h2 ▸ Nat.dvd_of_mod_eq_zero hc)
    · intro hc; exact h 3 (by omega) (by omega) (h3 ▸ Nat.dvd_of_mod_eq_zero hc)
  · rintro ⟨hc2, hc3, hc5⟩ j hj1 hj2 hdvd
    interval_cases j
    · rw [h1] at hdvd; obtain ⟨t, rfl⟩ := hdvd; exact hc2 (Nat.mul_mod_right 2 t)
    · rw [h2] at hdvd; obtain ⟨t, rfl⟩ := hdvd; exact hc3 (Nat.mul_mod_right 3 t)
    · rw [h3] at hdvd; obtain ⟨t, rfl⟩ := hdvd; exact hc5 (Nat.mul_mod_right 5 t)

/-- Window list accessor; out-of-range windows read as all-zero. -/
def wget (ws : List (ℕ → Bool)) (j : ℕ) : ℕ → Bool := ws.getD j (fun _ => false)

theorem wget_set_self {ws : List (ℕ → Bool)} {i : ℕ} (w : ℕ → Bool)
    (h : i < ws.length) : wget (ws.set i w) i = w := by
  rw [wget, List.getD_eq_getElem?_getD, List.getElem?_set_self (by omega)]
  rfl

theorem wget_set_ne {ws : List (ℕ → Bool)} {i j : ℕ} (w : ℕ → Bool)
    (h : i ≠ j) : wget (ws.set i w) j = wget ws j := by
  rw [wget, wget, List.getD_eq_getElem?_getD, List.getD_eq_getElem?_getD,
    List.getElem?_set_ne h]

/-- Bridge between `List.countP` over a range and a `Finset` filter card. -/
theorem countP_range_eq_card (n : ℕ) (p : ℕ → Bool) :
    (List.range n).countP p = ((Finset.range n).filter (fun k => p k = true)).card := by
  induction n with
  | zero => rfl
  | succ n ih =>
    rw [List.range_succ, List.countP_append, Finset.range_succ, Finset.filter_insert]
    by_cases h : p n = true
    · rw [if_pos h, Finset.card_insert_of_not_mem (by simp)]
      simp [List.countP_cons, h, ih]
    · rw [if_neg h]
      simp [List.countP_cons, h, ih]

/-- Stepping an arithmetic progression once: membership from `n` splits into
`n` itself and membership from `n + s`. -/
theorem stride_step_iff {s n maxX V : ℕ} (hn : n ≤ maxX) :
    (V ≤ maxX ∧ n ≤ V ∧ (V - n) % s = 0) ↔
      (V = n ∨ (V ≤ maxX ∧ n + s ≤ V ∧ (V - (n + s)) % s = 0)) := by
  rcases Nat.eq_zero_or_pos s with rfl | hs
  · simp only [Nat.mod_zero, Nat.add_zero]
    omega
  constructor
  · rintro ⟨h1, h2, h3⟩
    by_cases hV : V = n
    · exact Or.inl hV
    right
    obtain ⟨t, ht⟩ : s ∣ V - n := Nat.dvd_of_mod_eq_zero h3
    have ht1 : 1 ≤ t := by
      rcases Nat.eq_zero_or_pos t with rfl | h
      · omega
      · exact h
    refine ⟨h1, ?_, ?_⟩
    · have : s * 1 ≤ s * t := Nat.mul_le_mul_left s ht1
      omega
    · have hts : V - (n + s) = s * (t - 1) := by
        have hexp : s * t = s * (t - 1) + s := by
          have h1' : t = (t - 1) + 1 := by omega
          calc s * t = s * ((t - 1) + 1) := by rw [← h1']
          _ = s * (t - 1) + s := by ring
        omega
      rw [hts, Nat.mul_mod_right]
  · rintro (rfl | ⟨h1, h2, h3⟩)
    · exact ⟨hn, le_refl _, by simp⟩
    refine ⟨h1, by omega, ?_⟩
    obtain ⟨t, ht⟩ : s ∣ V - (n + s) := Nat.dvd_of_mod_eq_zero h3
    have : V - n = s * (t + 1) := by
      have hexp : s * (t + 1) = s * t + s := by ring
      omega
    rw [this, Nat.mul_mod_right]

/-- The odd-multiples crossing loop of `init_cache`:
`for (n = start; n <= max_x; n += prime * 2) sieve[n/240].bits &= unset_bit_[n%240]`. -/
def crossOffBits (maxX prime : ℕ) : ℕ → ℕ → List (ℕ → Bool) → List (ℕ → Bool)
  | 0, _, ws => ws
  | fuel + 1, n, ws =>
    if n ≤ maxX then
      crossOffBits maxX prime fuel (n + prime * 2)
        (ws.set (n / 240) (applyUnsetBit (n % 240) (wget ws (n / 240))))
    else ws

theorem crossOffBits_length (maxX prime : ℕ) :
    ∀ fuel n ws, (crossOffBits maxX prime fuel n ws).length = ws.length := by
  intro fuel
  induction fuel with
  | zero => intro n ws; rfl
  | succ fuel ih =>
    intro n ws
    rw [crossOffBits]
    by_cases hn : n ≤ maxX
    · rw [if_pos hn, ih, List.length_set]
    · rw [if_neg hn]

/-- What the crossing loop does to each bit: bit `(j, k)` survives iff it
survived before and its value is not on the progression `n, n+2p, … ≤ maxX`. -/
theorem wget_crossOffBits_iff {maxX prime : ℕ} :
    ∀ fuel n (ws : List (ℕ → Bool)) j k, maxX < n + fuel * (prime * 2) →
    j < ws.length → k < 64 →
    (wget (crossOffBits maxX prime fuel n ws) j k = true ↔
      (wget ws j k = true ∧ ¬(bitValue j k ≤ maxX ∧ n ≤ bitValue j k ∧
        (bitValue j k - n) % (prime * 2) = 0))) := by
  intro fuel
  induction fuel with
  | zero =>
    intro n ws j k hfuel hj hk
    rw [crossOffBits]
    constructor
    · intro h
      refine ⟨h, ?_⟩
      omega
    · intro h
      exact h.1
  | succ fuel ih =>
    intro n ws j k hfuel hj hk
    rw [crossOffBits]
    by_cases hn : n ≤ maxX
    · rw [if_pos hn]
      have hfuel' : maxX < (n + prime * 2) + fuel * (prime * 2) := by
        have hexp : n + (fuel + 1) * (prime * 2) = (n + prime * 2) + fuel * (prime * 2) := by
          ring
        omega
      have hj' : j < (ws.set (n / 240)
          (applyUnsetBit (n % 240) (wget ws (n / 240)))).length := by
        rwa [List.length_set]
      rw [ih (n + prime * 2) _ j k hfuel' hj' hk]
      have hwrite : wget (ws.set (n / 240) (applyUnsetBit (n % 240) (wget ws (n / 240)))) j k
          = (wget ws j k && !decide (bitValue j k = n)) := by
        by_cases hjn : j = n / 240
        · subst hjn
          rw [wget_set_self _ (by omega), applyUnsetBit]
          have hmask : (bitResidue k == n % 240) = decide (bitValue (n / 240) k = n) := by
            have hres := bitResidue_lt k hk
            have hiff : bitResidue k = n % 240 ↔ bitValue (n / 240) k = n := by
              rw [bitValue]
              omega
            by_cases hc : bitResidue k = n % 240
            · rw [decide_eq_true (hiff.mp hc)]
              exact beq_iff_eq.mpr hc
            · rw [decide_eq_false (fun hh => hc (hiff.mpr hh))]
              exact beq_eq_false_iff_ne.mpr hc
          rw [hmask]
        · rw [wget_set_ne _ (by omega)]
          have : decide (bitValue j k = n) = false := by
            rw [decide_eq_false_iff_not]
            intro hVn
            apply hjn
            have hres := bitResidue_lt k hk
            rw [bitValue] at hVn
            omega
          rw [this]
          simp
      rw [hwrite]
      have hstride := stride_step_iff (s := prime * 2) (V := bitValue j k) hn
      constructor
      · rintro ⟨hb, hnc⟩
        rcases Bool.and_eq_true _ _ |>.mp hb with ⟨hb1, hb2⟩
        have hVn : ¬(bitValue j k = n) := by simpa using hb2
        exact ⟨hb1, fun hc => hnc (by rw [hstride] at hc; tauto)⟩
      · rintro ⟨hb, hnc⟩
        have hVn : ¬(bitValue j k = n) := by
          intro hVn
          exact hnc (by rw [hstride]; exact Or.inl hVn)
        refine ⟨by rw [Bool.and_eq_true]; exact ⟨hb, by simpa using hVn⟩, fun hc => ?_⟩
        exact hnc (by rw [hstride]; exact Or.inr hc)
    · rw [if_neg hn]
      constructor
      · intro h
        refine ⟨h, ?_⟩
        omega
      · intro h
        exact h.1

/-- `max_x_ = max_x_size_ * 240 - 1` (0 when the cache is disabled). -/
def cacheMaxX (maxXSize : ℕ) : ℕ := maxXSize * 240 - 1

/-- The bit arrays of cache level `i`, built exactly as `init_cache` does:
levels ≤ 3 are all-ones (numbers coprime to the wheel {2,3,5}); level `i`
copies level `i−1`, clears the bit of `primes[i]`, then clears
`primes[i]², primes[i]² + 2·primes[i], …` up to `max_x_`. -/
def cacheBits (maxXSize : ℕ) : ℕ → List (ℕ → Bool)
  | 0 => List.replicate maxXSize (fun _ => true)
  | i + 1 =>
    if i + 1 ≤ 3 then List.replicate maxXSize (fun _ => true)
    else
      let maxX := cacheMaxX maxXSize
      let p := primeSeq (i + 1)
      let prev := cacheBits maxXSize i
      let prev1 := if p ≤ maxX then
          prev.set (p / 240) (applyUnsetBit (p % 240) (wget prev (p / 240)))
        else prev
      crossOffBits maxX p (maxX / (p * 2) + 1) (p * p) prev1

theorem cacheBits_length (maxXSize : ℕ) : ∀ i, (cacheBits maxXSize i).length = maxXSize := by
  intro i
  induction i with
  | zero => exact List.length_replicate _ _
  | succ i ih =>
    rw [cacheBits]
    by_cases h : i + 1 ≤ 3
    · rw [if_pos h, List.length_replicate]
    · rw [if_neg h]
      rw [crossOffBits_length]
      by_cases hp : primeSeq (i + 1) ≤ cacheMaxX maxXSize
      · rw [if_pos hp, List.length_set, ih]
      · rw [if_neg hp, ih]

theorem bitValue_le_maxX {maxXSize j k : ℕ} (hj : j < maxXSize) (hk : k < 64) :
    bitValue j k ≤ cacheMaxX maxXSize := by
  have := bitResidue_lt k hk
  rw [bitValue, cacheMaxX]
  have h1 : 240 * j ≤ 240 * (maxXSize - 1) := by
    have : j ≤ maxXSize - 1 := by omega
    exact Nat.mul_le_mul_left _ this
  omega

theorem bitValue_pos {j k : ℕ} (hk : k < 64) : 1 ≤ bitValue j k := by
  have := bitResidue_coprime30 k hk
  rw [bitValue]
  omega

/-- Multiples of `p = primes[i+1]` among survivors of the first `i` primes are
exactly `p` itself and the progression `p², p² + 2p, …`. -/
theorem mult_progression {i V : ℕ} (hi : 3 ≤ i) (hcop : coprimeFirst i V)
    (hV : 1 ≤ V) :
    (primeSeq (i + 1) ∣ V ↔
      V = primeSeq (i + 1) ∨ (primeSeq (i + 1) * primeSeq (i + 1) ≤ V ∧
        (V - primeSeq (i + 1) * primeSeq (i + 1)) % (primeSeq (i + 1) * 2) = 0)) := by
  set p := primeSeq (i + 1) with hp_def
  have hpP : p.Prime := isPrime_iff.mp (primeSeq_prime (by omega))
  have hp2 : 2 ≤ p := hpP.two_le
  have hpodd : ¬ (2 ∣ p) := by
    intro h2p
    have h12 : primeSeq 1 = 2 := by decide
    have : (2 : ℕ).Prime := Nat.prime_two
    have := (Nat.prime_dvd_prime_iff_eq this hpP).mp h2p
    have := primeSeq_strictMono (show 1 < i + 1 by omega)
    omega
  constructor
  · intro hdvd
    obtain ⟨m, rfl⟩ := hdvd
    have hm1 : 1 ≤ m := by
      rcases Nat.eq_zero_or_pos m with rfl | h
      · omega
      · exact h
    rcases Nat.eq_or_lt_of_le hm1 with rfl | hm2
    · left; omega
    right
    -- every prime factor of p * m exceeds primeSeq i, hence is ≥ p
    have hfac : ∀ q, isPrime q = true → q ∣ m → p ≤ q := by
      intro q hq hqm
      have : primeSeq i < q := coprimeFirst_iff_forall_prime.mp hcop q hq
        (Dvd.dvd.mul_left hqm p)
      exact primeSeq_succ_le_of_prime_gt hq this
    have hmp : p ≤ m := by
      have hq := Nat.minFac_prime (by omega : m ≠ 1)
      have := hfac m.minFac (isPrime_iff.mpr hq) (Nat.minFac_dvd m)
      have := Nat.minFac_le (by omega : 0 < m)
      omega
    have hmodd : ¬ (2 ∣ m) := by
      intro h2m
      have h12 : primeSeq 1 = 2 := by decide
      exact absurd (Dvd.dvd.mul_left h2m p)
        (fun hc => (hcop 1 (by omega) (by omega)) (h12 ▸ hc))
    -- m = p + 2t
    have hpar : (m - p) % 2 = 0 := by omega
    obtain ⟨t, ht⟩ : 2 ∣ m - p := Nat.dvd_of_mod_eq_zero hpar
    constructor
    · calc p * p ≤ p * m := Nat.mul_le_mul_left p hmp
      _ = p * m := rfl
    · have hexp : p * m - p * p = p * 2 * t := by
        have h1 : p * m = p * p + p * (m - p) := by
          have : m = p + (m - p) := by omega
          calc p * m = p * (p + (m - p)) := by rw [← this]
          _ = p * p + p * (m - p) := by ring
        have h2 : p * (m - p) = p * 2 * t := by rw [ht]; ring
        omega
      rw [hexp, Nat.mul_mod_right]
  · rintro (rfl | ⟨h1, h2⟩)
    · exact dvd_refl p
    obtain ⟨t, ht⟩ : p * 2 ∣ V - p * p := Nat.dvd_of_mod_eq_zero h2
    have : V = p * (p + 2 * t) := by
      have : p * (p + 2 * t) = p * p + p * 2 * t := by ring
      omega
    rw [this]
    exact Dvd.intro _ rfl

/-- The main cache invariant: bit `k` of window `j` at level `i ≥ 3` is set
iff its value is coprime to the first `i` primes. -/
theorem cacheBits_invariant (maxXSize : ℕ) : ∀ i, 3 ≤ i → ∀ j, j < maxXSize →
    ∀ k, k < 64 →
    (wget (cacheBits maxXSize i) j k = true ↔ coprimeFirst i (bitValue j k)) := by
  intro i
  induction i with
  | zero => omega
  | succ i ih =>
    intro hi3 j hj k hk
    rw [cacheBits]
    by_cases hbase : i + 1 ≤ 3
    · rw [if_pos hbase]
      have hival : i + 1 = 3 := by omega
      have hw : wget (List.replicate maxXSize (fun _ => true)) j k = true := by
        rw [wget, List.getD_eq_getElem?_getD, List.getElem?_replicate,
          if_pos (by omega)]
        rfl
      rw [hw, hival]
      simp only [true_iff]
      rw [coprimeFirst_three_iff]
      have := bitResidue_coprime30 k hk
      rw [bitValue]
      omega
    · rw [if_neg hbase]
      have hi : 3 ≤ i := by omega
      set p := primeSeq (i + 1) with hp_def
      set maxX := cacheMaxX maxXSize with hmx_def
      have hp2 : 2 ≤ p := primeSeq_two_le (by omega)
      have hVle : bitValue j k ≤ maxX := bitValue_le_maxX hj hk
      have hV1 : 1 ≤ bitValue j k := bitValue_pos hk
      have hlen1 : j < (if p ≤ maxX then
          (cacheBits maxXSize i).set (p / 240)
            (applyUnsetBit (p % 240) (wget (cacheBits maxXSize i) (p / 240)))
        else cacheBits maxXSize i).length := by
        by_cases hple : p ≤ maxX
        · rw [if_pos hple, List.length_set, cacheBits_length]; exact hj
        · rw [if_neg hple, cacheBits_length]; exact hj
      have hfuel : maxX < p * p + (maxX / (p * 2) + 1) * (p * 2) := by
        have hdm := Nat.div_add_mod maxX (p * 2)
        have hexp : (maxX / (p * 2) + 1) * (p * 2) =
            p * 2 * (maxX / (p * 2)) + p * 2 := by ring
        have hmod : maxX % (p * 2) < p * 2 := Nat.mod_lt _ (by omega)
        omega
      rw [wget_crossOffBits_iff (maxX / (p * 2) + 1) (p * p) _ j k hfuel hlen1 hk]
      -- survivors of the p-clearing write
      have hwrite : wget (if p ≤ maxX then
          (cacheBits maxXSize i).set (p / 240)
            (applyUnsetBit (p % 240) (wget (cacheBits maxXSize i) (p / 240)))
        else cacheBits maxXSize i) j k = true ↔
          (wget (cacheBits maxXSize i) j k = true ∧ bitValue j k ≠ p) := by
        by_cases hple : p ≤ maxX
        · rw [if_pos hple]
          by_cases hjp : j = p / 240
          · subst hjp
            rw [wget_set_self _ (by rw [cacheBits_length]; omega), applyUnsetBit]
            have hres := bitResidue_lt k hk
            have hiff : bitResidue k = p % 240 ↔ bitValue (p / 240) k = p := by
              rw [bitValue]
              omega
            by_cases hc : bitResidue k = p % 240
            · rw [beq_iff_eq.mpr hc]
              simp only [Bool.not_true, Bool.and_false]
              constructor
              · intro h; exact absurd h (by simp)
              · rintro ⟨_, hne⟩; exact absurd (hiff.mp hc) hne
            · rw [beq_eq_false_iff_ne.mpr hc]
              simp only [Bool.not_false, Bool.and_true]
              constructor
              · intro h; exact ⟨h, fun hv => hc (hiff.mpr hv)⟩
              · rintro ⟨h, _⟩; exact h
          · rw [wget_set_ne _ (by omega)]
            have hres := bitResidue_lt k hk
            have : bitValue j k ≠ p := by
              rw [bitValue]
              intro hv
              apply hjp
              omega
            tauto
        · rw [if_neg hple]
          have : bitValue j k ≠ p := by omega
          tauto
      rw [hwrite, ih hi j hj k hk]
      -- number theory: value not p and not on the progression ⟺ p does not divide it
      have hmp := mult_progression (i := i) (V := bitValue j k) hi
      rw [← hp_def] at hmp
      constructor
      · rintro ⟨⟨hcop, hne⟩, hnprog⟩
        rw [coprimeFirst_succ, ← hp_def]
        refine ⟨hcop, fun hdvd => ?_⟩
        rcases (hmp hcop hV1).mp hdvd with h | h
        · exact hne h
        · exact hnprog ⟨hVle, h.1, h.2⟩
      · intro hcop1
        rw [coprimeFirst_succ, ← hp_def] at hcop1
        obtain ⟨hcop, hnd⟩ := hcop1
        refine ⟨⟨hcop, fun hv => hnd (by rw [hv])⟩, fun hprog => ?_⟩
        exact hnd ((hmp hcop hV1).mpr (Or.inr ⟨hprog.2.1, hprog.2.2⟩))

/-- Per-window cumulative counts as filled by `init_cache`:
`count[j]` is the number of set bits in windows `0 … j−1` (the numbers
`< j·240` surviving the sieve). -/
def cacheCounts (ws : List (ℕ → Bool)) : List ℕ :=
  (List.range ws.length).map (fun j => ((ws.take j).map popcnt64).sum)

/-- `PhiCache::phi_cache(x, a)`: cumulative window count plus the popcount of
the window masked to residues ≤ x mod 240. -/
def phiCacheLookup (maxXSize x a : ℕ) : ℕ :=
  (cacheCounts (cacheBits maxXSize a)).getD (x / 240) 0 +
    popcnt64 (applyUnsetLarger (x % 240) (wget (cacheBits maxXSize a) (x / 240)))

/-- The masked popcount of window `j` counts the sieve survivors among
`[240·j, 240·j + r]`. -/
theorem popcnt_masked_window {maxXSize i j r : ℕ} (hi : 3 ≤ i) (hj : j < maxXSize)
    (hr : r ≤ 239) :
    popcnt64 (applyUnsetLarger r (wget (cacheBits maxXSize i) j)) =
      ((Finset.Icc (240 * j) (240 * j + r)).filter (fun v => coprimeFirst i v)).card := by
  rw [popcnt64, countP_range_eq_card]
  refine Finset.card_nbij (fun k => 240 * j + bitResidue k) ?_ ?_ ?_
  · intro k hk
    simp only [Finset.mem_filter, Finset.mem_range, Finset.mem_Icc] at hk ⊢
    obtain ⟨hk64, hbit⟩ := hk
    rw [applyUnsetLarger, Bool.and_eq_true, decide_eq_true_eq] at hbit
    obtain ⟨hb, hres⟩ := hbit
    have hinv := (cacheBits_invariant maxXSize i hi j hj k hk64).mp hb
    rw [bitValue] at hinv
    exact ⟨⟨by omega, by omega⟩, hinv⟩
  · intro k1 h1 k2 h2 heq
    simp only [Finset.coe_filter, Set.mem_setOf_eq, Finset.mem_range] at h1 h2
    have heq' : 240 * j + bitResidue k1 = 240 * j + bitResidue k2 := heq
    exact bitResidue_inj k1 h1.1 k2 h2.1 (by omega)
  · intro v hv
    simp only [Finset.coe_filter, Set.mem_setOf_eq, Finset.mem_Icc] at hv
    obtain ⟨⟨hv1, hv2⟩, hcop⟩ := hv
    have hcop3 : coprimeFirst 3 v := fun j' a b hd => hcop j' a (by omega) hd
    rw [coprimeFirst_three_iff] at hcop3
    have hsmod : (v - 240 * j) % 2 ≠ 0 ∧ (v - 240 * j) % 3 ≠ 0 ∧
        (v - 240 * j) % 5 ≠ 0 := by omega
    obtain ⟨hk64, hkres⟩ := bitIndexOf_spec (v - 240 * j) (by omega)
      hsmod.1 hsmod.2.1 hsmod.2.2
    refine ⟨bitIndexOf (v - 240 * j), ?_, by
      show 240 * j + bitResidue (bitIndexOf (v - 240 * j)) = v
      rw [hkres]; omega⟩
    simp only [Finset.mem_coe, Finset.mem_filter, Finset.mem_range]
    refine ⟨hk64, ?_⟩
    rw [applyUnsetLarger, Bool.and_eq_true, decide_eq_true_eq]
    constructor
    · rw [cacheBits_invariant maxXSize i hi j hj _ hk64, bitValue, hkres]
      have hvv : 240 * j + (v - 240 * j) = v := by omega
      rw [hvv]
      exact hcop
    · rw [hkres]; omega

/-- The full popcount of window `j` counts all survivors in its 240-block. -/
theorem popcnt_window {maxXSize i j : ℕ} (hi : 3 ≤ i) (hj : j < maxXSize) :
    popcnt64 (wget (cacheBits maxXSize i) j) =
      ((Finset.Icc (240 * j) (240 * j + 239)).filter (fun v => coprimeFirst i v)).card := by
  rw [← popcnt_masked_window hi hj (le_refl 239), popcnt64, popcnt64]
  refine List.countP_congr ?_
  intro k hk
  simp only [List.mem_range] at hk
  rw [applyUnsetLarger]
  have := bitResidue_lt k hk
  rw [decide_eq_true (show bitResidue k ≤ 239 by omega), Bool.and_true]

/-- The cumulative counts entry at window `J` counts all survivors below
`240·J`. -/
theorem cacheCounts_getD {maxXSize i J : ℕ} (hi : 3 ≤ i) (hJ : J < maxXSize) :
    (cacheCounts (cacheBits maxXSize i)).getD J 0 =
      ((Finset.Ico 0 (240 * J)).filter (fun v => coprimeFirst i v)).card := by
  have hlen := cacheBits_length maxXSize i
  have hkey : ∀ J', J' ≤ maxXSize →
      ((((cacheBits maxXSize i).take J').map popcnt64).sum =
        ((Finset.Ico 0 (240 * J')).filter (fun v => coprimeFirst i v)).card) := by
    intro J'
    induction J' with
    | zero => intro h0; simp
    | succ J' ihJ =>
      intro hJ1
      have hJlt : J' < (cacheBits maxXSize i).length := by omega
      rw [List.take_succ, List.map_append, List.sum_append, ihJ (by omega),
        List.getElem?_eq_getElem hJlt]
      have hwin : (cacheBits maxXSize i)[J'] = wget (cacheBits maxXSize i) J' := by
        rw [wget, List.getD_eq_getElem?_getD, List.getElem?_eq_getElem hJlt]
        rfl
      simp only [Option.toList_some, List.map_cons, List.map_nil, List.sum_cons,
        List.sum_nil, Nat.add_zero]
      rw [hwin, popcnt_window hi (by omega)]
      have hsplit : Finset.Ico 0 (240 * (J' + 1)) =
          Finset.Ico 0 (240 * J') ∪ Finset.Icc (240 * J') (240 * J' + 239) := by
        ext v
        simp only [Finset.mem_union, Finset.mem_Ico, Finset.mem_Icc]
        omega
      rw [hsplit, Finset.filter_union, Finset.card_union_of_disjoint]
      rw [Finset.disjoint_left]
      intro v hv hv'
      simp only [Finset.mem_filter, Finset.mem_Ico] at hv
      simp only [Finset.mem_filter, Finset.mem_Icc] at hv'
      omega
  rw [cacheCounts, List.getD_eq_getElem?_getD, List.getElem?_map]
  rw [List.getElem?_range (by omega : J < (cacheBits maxXSize i).length)]
  simpa using hkey J (by omega)

/-- Correctness of the cache lookup: for `x ≤ max_x_` and `a ≥ 3` the lookup
returns φ(x, a). -/
theorem phiCacheLookup_eq {maxXSize x a : ℕ} (ha : 3 ≤ a)
    (hx : x ≤ cacheMaxX maxXSize) (hsize : 1 ≤ maxXSize) :
    phiCacheLookup maxXSize x a = legendrePhi x a := by
  have hj : x / 240 < maxXSize := by
    rw [cacheMaxX] at hx
    omega
  have hr : x % 240 ≤ 239 := by omega
  rw [phiCacheLookup, cacheCounts_getD ha hj, popcnt_masked_window ha hj hr]
  rw [legendrePhi]
  have hsplit : Finset.Icc 0 x = Finset.Ico 0 (240 * (x / 240)) ∪
      Finset.Icc (240 * (x / 240)) (240 * (x / 240) + x % 240) := by
    ext v
    simp only [Finset.mem_union, Finset.mem_Ico, Finset.mem_Icc]
    omega
  have hdisj : Disjoint ((Finset.Ico 0 (240 * (x / 240))).filter
      (fun v => coprimeFirst a v))
      ((Finset.Icc (240 * (x / 240)) (240 * (x / 240) + x % 240)).filter
      (fun v => coprimeFirst a v)) := by
    rw [Finset.disjoint_left]
    intro v hv hv'
    simp only [Finset.mem_filter, Finset.mem_Ico] at hv
    simp only [Finset.mem_filter, Finset.mem_Icc] at hv'
    omega
  have hzero : (Finset.Icc 1 x).filter (fun v => coprimeFirst a v) =
      (Finset.Icc 0 x).filter (fun v => coprimeFirst a v) := by
    ext v
    simp only [Finset.mem_filter, Finset.mem_Icc]
    constructor
    · rintro ⟨⟨h1, h2⟩, h3⟩
      exact ⟨⟨by omega, h2⟩, h3⟩
    · rintro ⟨⟨_, h2⟩, h3⟩
      refine ⟨⟨?_, h2⟩, h3⟩
      by_contra hv0
      have hv0' : v = 0 := by omega
      subst hv0'
      have h12 : primeSeq 1 = 2 := by decide
      exact (h3 1 (by omega) (by omega)) (by rw [h12]; exact Dvd.intro 0 rfl)
  rw [hzero, hsplit, Finset.filter_union, Finset.card_union_of_disjoint hdisj]

/-! ## The `PhiCache::phi<SIGN>` recursion

The `primes_` and `pi_` members are the exact tables produced by
`generate_n_primes` / `PiTable` (spec-modelled collaborators), so they are
embedded as `primeSeq` and `primeCount`; `pi_.size()` is kept as a parameter
since `is_pix` branches on it.  The cache geometry (`max_x_size_`, `max_a_`)
is determined by the constructor through a floating-point expression, so it
is carried as an oracle parameter: every theorem below holds for every
geometry.  The one mutable datum, `max_a_cached_` (`mac`), is threaded
explicitly; the sieve arrays themselves are the pure function `cacheBits` of
the level, which is exactly how `init_cache` fills them. -/

/-- Parameters of one `PhiCache` instance. -/
structure PhiCtx where
  piSize : ℕ
  maxXSize : ℕ
  maxA : ℕ

/-- `max_x_` of a cache instance (`max_x_size_ * 240 - 1`, 0 when disabled). -/
def PhiCtx.maxX (ctx : PhiCtx) : ℕ := cacheMaxX ctx.maxXSize

/-- `PhiCache::is_pix(x, a)`: `x < pi_.size() && x < isquare(primes[a+1])`. -/
def isPix (ctx : PhiCtx) (x a : ℕ) : Bool :=
  decide (x < ctx.piSize) && decide (x < primeSeq (a + 1) * primeSeq (a + 1))

/-- `PhiCache::is_cached(x, a)`:
`x ≤ max_x_ && a ≤ max_a_cached_ && a > PhiTiny::max_a()`. -/
def isCached (ctx : PhiCtx) (mac x a : ℕ) : Bool :=
  decide (x ≤ ctx.maxX) && decide (a ≤ mac) && decide (a > phiTinyMaxA)

/-- The second loop of `PhiCache::phi` (remaining terms via the π table) and
the trailing `phi_1` correction; the countdown `k` equals `a + 1 - i`. -/
def phiLoop2 (sign : ℤ) (x a sqrtx : ℕ) : ℕ → ℕ → ℤ → ℤ
  | 0, _, sum => sum
  | k + 1, i, sum =>
    if primeSeq i > sqrtx then
      sum + ((a + 1 - i : ℕ) : ℤ) * (-sign)
    else
      phiLoop2 sign x a sqrtx k (i + 1)
        (sum + ((primeCount (x / primeSeq i) : ℤ) - (i : ℤ) + 2) * (-sign))

/-- The first loop of `PhiCache::phi`; `rec` is the recursive call
`phi<-SIGN>` at one fuel less, returning the value and the updated
`max_a_cached_`. -/
def phiLoop1 (ctx : PhiCtx) (rec : ℤ → ℕ → ℕ → ℕ → ℤ × ℕ)
    (sign : ℤ) (x a sqrtx : ℕ) : ℕ → ℕ → ℕ → ℤ → ℤ × ℕ
  | 0, _, mac, sum => (sum, mac)
  | k + 1, i, mac, sum =>
    if primeSeq i > sqrtx then
      (sum + ((a + 1 - i : ℕ) : ℤ) * (-sign), mac)
    else
      let xp := x / primeSeq i
      if isPix ctx xp (i - 1) then
        (phiLoop2 sign x a sqrtx k (i + 1)
          (sum + ((primeCount xp : ℤ) - (i : ℤ) + 2) * (-sign)), mac)
      else if isCached ctx mac xp (i - 1) then
        phiLoop1 ctx rec sign x a sqrtx k (i + 1) mac
          (sum + (phiCacheLookup ctx.maxXSize xp (i - 1) : ℤ) * (-sign))
      else
        let r := rec (-sign) xp (i - 1) mac
        phiLoop1 ctx rec sign x a sqrtx k (i + 1) r.2 (sum + r.1)

/-- `PhiCache::phi<SIGN>(x, a)` with explicit fuel (any `fuel > a` suffices;
each recursive call strictly decreases `a`). -/
def phiF (ctx : PhiCtx) : ℕ → ℤ → ℕ → ℕ → ℕ → ℤ × ℕ
  | 0, _, _, _, mac => (0, mac)
  | fuel + 1, sign, x, a, mac =>
    if x ≤ primeSeq a then (sign, mac)
    else if isPhiTiny a then ((phiTiny x a : ℤ) * sign, mac)
    else if isPix ctx x a then (((primeCount x : ℤ) - (a : ℤ) + 1) * sign, mac)
    else
      let mac1 := if mac < min a ctx.maxA ∧ x ≤ ctx.maxX then min a ctx.maxA else mac
      if isCached ctx mac1 x a then
        ((phiCacheLookup ctx.maxXSize x a : ℤ) * sign, mac1)
      else
        let c := phiTinyMaxA
        let larger_c := max c (min mac1 a)
        let cc := if isCached ctx mac1 x larger_c then larger_c else c
        let sum0 : ℤ := if isCached ctx mac1 x larger_c then
            (phiCacheLookup ctx.maxXSize x larger_c : ℤ) * sign
          else (phiTiny x c : ℤ) * sign
        phiLoop1 ctx (phiF ctx fuel) sign x a (isqrt x) (a - cc) (cc + 1) mac1 sum0

/-- `PhiCache::phi<SIGN>(x, a)` with the canonical fuel. -/
def phiCachePhi (ctx : PhiCtx) (sign : ℤ) (x a mac : ℕ) : ℤ × ℕ :=
  phiF ctx (a + 1) sign x a mac

/-- Above `π(√x)` each new prime removes exactly one survivor:
φ(x, t+d) + d = φ(x, t) when all of `primes[t+1 … t+d]` lie in `(√x, x)`. -/
theorem legendrePhi_tail (x : ℕ) (hx1 : 1 ≤ x) : ∀ d t,
    (∀ j, t + 1 ≤ j → j ≤ t + d → isqrt x < primeSeq j ∧ primeSeq j < x) →
    legendrePhi x (t + d) + d = legendrePhi x t := by
  intro d
  induction d with
  | zero => intro t _; rfl
  | succ d ih =>
    intro t hj
    have hrec := legendrePhi_rec x (t + d)
    have hj1 := hj (t + d + 1) (by omega) (by omega)
    have hp2 : 2 ≤ primeSeq (t + d + 1) := primeSeq_two_le (by omega)
    have hv1 : 1 ≤ x / primeSeq (t + d + 1) :=
      Nat.one_le_div_iff (by omega) |>.mpr (le_of_lt hj1.2)
    have hvlt : x / primeSeq (t + d + 1) < primeSeq (t + d + 1) := by
      have hx2 : x < primeSeq (t + d + 1) * primeSeq (t + d + 1) := by
        have := hj1.1
        rw [isqrt] at this
        exact Nat.sqrt_lt.mp this
      exact Nat.div_lt_of_lt_mul hx2
    have hone : legendrePhi (x / primeSeq (t + d + 1)) (t + d) = 1 :=
      legendrePhi_eq_one hv1 hvlt
    have := ih t (fun j h1 h2 => hj j h1 (by omega))
    show legendrePhi x (t + d + 1) + (d + 1) = legendrePhi x t
    omega

/-- The value of a π-resolved term: when `primes[i] ≤ √x` and
`x/primes[i] < primes[i]²`, we get φ(x/pᵢ, i−1) = π(x/pᵢ) − i + 2. -/
theorem phi_term_pix {x i : ℕ} (hi1 : 1 ≤ i)
    (hpi : primeSeq i ≤ isqrt x) (hpix : x / primeSeq i < primeSeq i * primeSeq i) :
    (legendrePhi (x / primeSeq i) (i - 1) : ℤ) =
      (primeCount (x / primeSeq i) : ℤ) - i + 2 := by
  have hp2 : 2 ≤ primeSeq i := primeSeq_two_le hi1
  have hpx : primeSeq i * primeSeq i ≤ x := by
    rw [isqrt] at hpi
    exact Nat.le_sqrt.mp hpi
  have hxp_ge : primeSeq i ≤ x / primeSeq i :=
    (Nat.le_div_iff_mul_le (by omega)).mpr hpx
  have hxp1 : 1 ≤ x / primeSeq i := by omega
  have hsq : primeCount (Nat.sqrt (x / primeSeq i)) ≤ i - 1 := by
    have hlt : Nat.sqrt (x / primeSeq i) < primeSeq i := Nat.sqrt_lt.mpr hpix
    have := primeCount_lt_of_lt_primeSeq hlt
    omega
  have hax : i - 1 ≤ primeCount (x / primeSeq i) := by
    have h1 : primeSeq (i - 1) ≤ primeSeq i := primeSeq_strictMono.monotone (by omega)
    have := primeSeq_le_iff.mp (le_trans h1 hxp_ge)
    omega
  have := legendrePhi_pix hxp1 hsq hax
  push_cast
  omega

/-- Correctness of the second loop of `PhiCache::phi`. -/
theorem phiLoop2_correct (sign : ℤ) (x a : ℕ)
    (hxa : ∀ j, j ≤ a → primeSeq j < x) :
    ∀ k i sum, k + i = a + 1 → 1 ≤ i →
    (∀ j, i ≤ j → j ≤ a → primeSeq j ≤ isqrt x →
      x / primeSeq j < primeSeq j * primeSeq j) →
    sum = sign * legendrePhi x (i - 1) →
    phiLoop2 sign x a (isqrt x) k i sum = sign * legendrePhi x a := by
  have hx1 : 1 ≤ x := by
    have := hxa 0 (by omega)
    omega
  intro k
  induction k with
  | zero =>
    intro i sum hk hi _ hsum
    rw [phiLoop2, hsum]
    have hia : i - 1 = a := by omega
    rw [hia]
  | succ k ih =>
    intro i sum hk hi hpix hsum
    rw [phiLoop2]
    have hia : i ≤ a := by omega
    by_cases hgt : primeSeq i > isqrt x
    · rw [if_pos hgt]
      have htail := legendrePhi_tail x hx1 (a + 1 - i) (i - 1) (fun j h1 h2 => by
        refine ⟨lt_of_lt_of_le hgt (primeSeq_strictMono.monotone (by omega)), ?_⟩
        exact hxa j (by omega))
      have hia1 : i - 1 + (a + 1 - i) = a := by omega
      rw [hia1] at htail
      have hcast : (legendrePhi x a : ℤ) =
          (legendrePhi x (i - 1) : ℤ) - ((a + 1 - i : ℕ) : ℤ) := by
        push_cast
        omega
      rw [hsum, hcast]
      ring
    · rw [if_neg hgt]
      push_neg at hgt
      refine ih (i + 1) _ (by omega) (by omega)
        (fun j h1 h2 h3 => hpix j (by omega) h2 h3) ?_
      have hterm := phi_term_pix hi hgt (hpix i (le_refl i) hia hgt)
      have hrec := legendrePhi_rec x (i - 1)
      have hi1 : i - 1 + 1 = i := by omega
      rw [hi1] at hrec
      have hrecZ : (legendrePhi x (i - 1) : ℤ) =
          (legendrePhi x i : ℤ) + (legendrePhi (x / primeSeq i) (i - 1) : ℤ) := by
        push_cast
        omega
      have hstep : i + 1 - 1 = i := by omega
      rw [hsum, hstep, hrecZ, hterm]
      ring

/-- Correctness of the first loop of `PhiCache::phi`, given that the
recursive callback is correct one fuel lower. -/
theorem phiLoop1_correct (ctx : PhiCtx) (rec : ℤ → ℕ → ℕ → ℕ → ℤ × ℕ)
    (sign : ℤ) (x a : ℕ)
    (hxa : ∀ j, j ≤ a → primeSeq j < x)
    (hrec : ∀ s' x' a' mac', 1 ≤ x' → a' < a →
      (rec s' x' a' mac').1 = s' * legendrePhi x' a') :
    ∀ k i mac sum, k + i = a + 1 → 1 ≤ i →
      sum = sign * legendrePhi x (i - 1) →
      (phiLoop1 ctx rec sign x a (isqrt x) k i mac sum).1 =
        sign * legendrePhi x a := by
  have hx1 : 1 ≤ x := by
    have := hxa 0 (by omega)
    omega
  intro k
  induction k with
  | zero =>
    intro i mac sum hk hi hsum
    rw [phiLoop1, hsum]
    have hia : i - 1 = a := by omega
    rw [hia]
  | succ k ih =>
    intro i mac sum hk hi hsum
    rw [phiLoop1]
    have hia : i ≤ a := by omega
    have hp2 : 2 ≤ primeSeq i := primeSeq_two_le hi
    have hpix_lt : primeSeq i < x := hxa i hia
    have hxp1 : 1 ≤ x / primeSeq i := Nat.one_le_div_iff (by omega) |>.mpr (by omega)
    by_cases hgt : primeSeq i > isqrt x
    · rw [if_pos hgt]
      show sum + ((a + 1 - i : ℕ) : ℤ) * (-sign) = sign * legendrePhi x a
      have htail := legendrePhi_tail x hx1 (a + 1 - i) (i - 1) (fun j h1 h2 => by
        refine ⟨lt_of_lt_of_le hgt (primeSeq_strictMono.monotone (by omega)), ?_⟩
        exact hxa j (by omega))
      have hia1 : i - 1 + (a + 1 - i) = a := by omega
      rw [hia1] at htail
      have hcast : (legendrePhi x a : ℤ) =
          (legendrePhi x (i - 1) : ℤ) - ((a + 1 - i : ℕ) : ℤ) := by
        push_cast
        omega
      rw [hsum, hcast]
      ring
    · rw [if_neg hgt]
      push_neg at hgt
      have hi1 : i - 1 + 1 = i := by omega
      have hrecx := legendrePhi_rec x (i - 1)
      rw [hi1] at hrecx
      have hrecZ : (legendrePhi x (i - 1) : ℤ) =
          (legendrePhi x i : ℤ) + (legendrePhi (x / primeSeq i) (i - 1) : ℤ) := by
        push_cast
        omega
      by_cases hpx : isPix ctx (x / primeSeq i) (i - 1) = true
      · rw [if_pos hpx]
        have hpix2 : x / primeSeq i < primeSeq i * primeSeq i := by
          rw [isPix, Bool.and_eq_true, decide_eq_true_eq, decide_eq_true_eq] at hpx
          rw [hi1] at hpx
          exact hpx.2
        have hterm := phi_term_pix hi hgt hpix2
        refine phiLoop2_correct sign x a hxa k (i + 1) _ (by omega) (by omega)
          (fun j h1 h2 h3 => ?_) ?_
        · -- is_pix propagates to larger indices
          have hmono : primeSeq i ≤ primeSeq j := primeSeq_strictMono.monotone (by omega)
          calc x / primeSeq j ≤ x / primeSeq i := Nat.div_le_div_left hmono (by omega)
          _ < primeSeq i * primeSeq i := hpix2
          _ ≤ primeSeq j * primeSeq j := Nat.mul_le_mul hmono hmono
        · have hstep : i + 1 - 1 = i := by omega
          rw [hsum, hstep, hrecZ, hterm]
          ring
      · rw [if_neg hpx]
        by_cases hcc : isCached ctx mac (x / primeSeq i) (i - 1) = true
        · rw [if_pos hcc]
          have hlook : phiCacheLookup ctx.maxXSize (x / primeSeq i) (i - 1) =
              legendrePhi (x / primeSeq i) (i - 1) := by
            rw [isCached, Bool.and_eq_true, Bool.and_eq_true, decide_eq_true_eq,
              decide_eq_true_eq, decide_eq_true_eq] at hcc
            have h7 : phiTinyMaxA = 7 := rfl
            have hmx : ctx.maxX = ctx.maxXSize * 240 - 1 := rfl
            have hle := hcc.1.1
            refine phiCacheLookup_eq (by omega) hle ?_
            by_contra hsz
            have hz : ctx.maxXSize = 0 := by omega
            rw [hz] at hmx
            omega
          refine ih (i + 1) mac _ (by omega) (by omega) ?_
          have hstep : i + 1 - 1 = i := by omega
          rw [hsum, hstep, hrecZ, hlook]
          ring
        · rw [if_neg hcc]
          have hval := hrec (-sign) (x / primeSeq i) (i - 1) mac hxp1 (by omega)
          refine ih (i + 1) _ _ (by omega) (by omega) ?_
          have hstep : i + 1 - 1 = i := by omega
          rw [hsum, hstep, hrecZ, hval]
          ring

/-- Master correctness theorem for `PhiCache::phi<SIGN>`: for every cache
geometry, every `pi_` table size, every sign, every reached `max_a_cached_`
state and every fuel above `a`, the result is `SIGN · φ(x, a)`. -/
theorem phiF_correct (ctx : PhiCtx) :
    ∀ fuel sign x a mac, 1 ≤ x → a < fuel →
    (phiF ctx fuel sign x a mac).1 = sign * legendrePhi x a := by
  intro fuel
  induction fuel with
  | zero => omega
  | succ fuel ih =>
    intro sign x a mac hx hfuel
    rw [phiF]
    by_cases h1 : x ≤ primeSeq a
    · rw [if_pos h1]
      have ha1 : 1 ≤ a := by
        by_contra h
        have ha0 : a = 0 := by omega
        subst ha0
        have : primeSeq 0 = 0 := rfl
        omega
      have hone := legendrePhi_eq_one (a := a) hx (lt_of_le_of_lt h1 (primeSeq_lt_succ a))
      show sign = sign * legendrePhi x a
      rw [hone]
      ring
    · rw [if_neg h1]
      push_neg at h1
      have hxa : ∀ j, j ≤ a → primeSeq j < x := fun j hj =>
        lt_of_le_of_lt (primeSeq_strictMono.monotone hj) h1
      by_cases h2 : isPhiTiny a = true
      · rw [if_pos h2]
        show (phiTiny x a : ℤ) * sign = sign * legendrePhi x a
        rw [phiTiny_eq]
        ring
      · rw [if_neg h2]
        have ha8 : 8 ≤ a := by
          rw [isPhiTiny, decide_eq_true_eq] at h2
          rw [phiTinyMaxA] at h2
          omega
        by_cases h3 : isPix ctx x a = true
        · rw [if_pos h3]
          rw [isPix, Bool.and_eq_true, decide_eq_true_eq, decide_eq_true_eq] at h3
          have hsq : primeCount (Nat.sqrt x) ≤ a := by
            have : Nat.sqrt x < primeSeq (a + 1) := Nat.sqrt_lt.mpr h3.2
            have := primeCount_lt_of_lt_primeSeq this
            omega
          have hax : a ≤ primeCount x := primeSeq_le_iff.mp (le_of_lt h1)
          have hpix := legendrePhi_pix hx hsq hax
          show ((primeCount x : ℤ) - a + 1) * sign = sign * legendrePhi x a
          have hφ : (legendrePhi x a : ℤ) = (primeCount x : ℤ) - a + 1 := by
            push_cast
            omega
          rw [hφ]
          ring
        · rw [if_neg h3]
          simp only []
          set mac1 := if mac < min a ctx.maxA ∧ x ≤ ctx.maxX then min a ctx.maxA else mac
            with hmac1
          have hsize_of : ∀ y' a', isCached ctx mac1 y' a' = true → 1 ≤ y' →
              phiCacheLookup ctx.maxXSize y' a' = legendrePhi y' a' := by
            intro y' a' hcc hy1
            rw [isCached, Bool.and_eq_true, Bool.and_eq_true, decide_eq_true_eq,
              decide_eq_true_eq, decide_eq_true_eq] at hcc
            have h7 : phiTinyMaxA = 7 := rfl
            have hmx : ctx.maxX = ctx.maxXSize * 240 - 1 := rfl
            have hle := hcc.1.1
            refine phiCacheLookup_eq (by omega) hle ?_
            by_contra hsz
            have hz : ctx.maxXSize = 0 := by omega
            rw [hz] at hmx
            omega
          by_cases h4 : isCached ctx mac1 x a = true
          · rw [if_pos h4]
            show (phiCacheLookup ctx.maxXSize x a : ℤ) * sign = sign * legendrePhi x a
            rw [hsize_of x a h4 hx]
            ring
          · rw [if_neg h4]
            set larger_c := max phiTinyMaxA (min mac1 a) with hlc
            have hlc_le : larger_c ≤ a := by
              rw [hlc, phiTinyMaxA]
              omega
            by_cases h5 : isCached ctx mac1 x larger_c = true
            · rw [if_pos h5, if_pos h5]
              have hlc7 : 7 < larger_c := by
                rw [isCached, Bool.and_eq_true, Bool.and_eq_true, decide_eq_true_eq,
                  decide_eq_true_eq, decide_eq_true_eq] at h5
                rw [phiTinyMaxA] at h5
                omega
              have hcc_ne : larger_c ≠ a := by
                intro he
                rw [he] at h5
                exact h4 h5
              refine phiLoop1_correct ctx (phiF ctx fuel) sign x a hxa
                (fun s' x' a' mac' hx' ha' => ih s' x' a' mac' hx' (by omega))
                (a - larger_c) (larger_c + 1) mac1 _ (by omega) (by omega) ?_
              show (phiCacheLookup ctx.maxXSize x larger_c : ℤ) * sign =
                sign * legendrePhi x (larger_c + 1 - 1)
              have hstep : larger_c + 1 - 1 = larger_c := by omega
              rw [hstep, hsize_of x larger_c h5 hx]
              ring
            · rw [if_neg h5, if_neg h5]
              refine phiLoop1_correct ctx (phiF ctx fuel) sign x a hxa
                (fun s' x' a' mac' hx' ha' => ih s' x' a' mac' hx' (by omega))
                (a - phiTinyMaxA) (phiTinyMaxA + 1) mac1 _ (by omega) (by omega) ?_
              show (phiTiny x phiTinyMaxA : ℤ) * sign =
                sign * legendrePhi x (phiTinyMaxA + 1 - 1)
              have hstep : phiTinyMaxA + 1 - 1 = phiTinyMaxA := by omega
              rw [hstep, phiTiny_eq]
              ring

/-! ## The public `phi(x, a, threads)` entry point (`phi_OpenMP`)

`pix_upper` mixes a small-x cache with a floating-point bound
`x/(log x − 1.1) + 10`; it is carried as an oracle parameter constrained only
by its documented contract `π(x) ≤ pix_upper(x)`.  `pi_noprint` (the full
prime counter, external) is modelled from the spec as exact π.  The OpenMP
reduction over `i` is serialized; each thread's private `PhiCache` becomes
one threaded cache state, which cannot change the sum (the master theorem
holds for every cache state). -/

/-- Modelled from the spec: `pi_noprint(x, threads)` returns π(x) exactly. -/
def piNoprint (x : ℕ) : ℕ := primeCount x

/-- `phi_pix(x, a, threads)` from `phi.cpp`. -/
def phiPix (x a : ℕ) : ℤ :=
  if (a : ℤ) ≤ (piNoprint x : ℤ) then (piNoprint x : ℤ) - a + 1 else 1

/-- The parallel reduction `for i = c+1 … a: sum += cache.phi<-1>(x / primes[i], i-1)`
of `phi_OpenMP`, serialized with one threaded cache state. -/
def phiSumLoop (ctx : PhiCtx) (x : ℕ) : ℕ → ℕ → ℕ → ℤ → ℤ
  | 0, _, _, sum => sum
  | k + 1, i, mac, sum =>
    let r := phiCachePhi ctx (-1) (x / primeSeq i) (i - 1) mac
    phiSumLoop ctx x k (i + 1) r.2 (sum + r.1)

/-- `phi_OpenMP(x, a, threads)` from `phi.cpp`.  `pixUpper` is the
floating-point upper-bound oracle; `cacheSize`/`cacheMaxA` are the
constructor's geometry oracle for the per-thread `PhiCache`. -/
def phiOpenMP (pixUpper : ℕ → ℕ) (cacheSize cacheMaxA : ℕ) (x a : ℤ) : ℤ :=
  if x < 1 then 0
  else if a < 1 then x
  else if a > x / 2 then 1
  else if isPhiTiny a.toNat then (phiTiny x.toNat a.toNat : ℤ)
  else if pixUpper x.toNat ≤ a.toNat then 1
  else if pixUpper (isqrt x.toNat) < a.toNat then phiPix x.toNat a.toNat
  else if primeCount (isqrt x.toNat) < a.toNat then phiPix x.toNat a.toNat
  else
    phiSumLoop ⟨isqrt x.toNat + 1, cacheSize, cacheMaxA⟩ x.toNat
      (a.toNat - min phiTinyMaxA a.toNat) (min phiTinyMaxA a.toNat + 1)
      0 (phiTiny x.toNat (min phiTinyMaxA a.toNat) : ℤ)

/-- `phi(x, a, threads, is_print)`, the public wrapper (printing stripped). -/
def phi (pixUpper : ℕ → ℕ) (cacheSize cacheMaxA : ℕ) (x a : ℤ) : ℤ :=
  phiOpenMP pixUpper cacheSize cacheMaxA x a

theorem isPrime_even_false {m : ℕ} (h4 : 4 ≤ m) (he : m % 2 = 0) :
    isPrime m = false := by
  rw [← Bool.not_eq_true]
  intro hp
  have hp' := isPrime_iff.mp hp
  have h2 : (2 : ℕ) ∣ m := Nat.dvd_of_mod_eq_zero he
  rcases (Nat.Prime.eq_one_or_self_of_dvd hp' 2 h2) with h | h <;> omega

/-- π(n) ≤ n/2 + 1 (2 is the only even prime). -/
theorem primeCount_le_half (n : ℕ) : primeCount n ≤ n / 2 + 1 := by
  induction n using Nat.strong_induction_on with
  | _ n ih =>
    match n with
    | 0 => decide
    | 1 => decide
    | 2 => decide
    | 3 => decide
    | (m + 4) =>
      have h1 := ih (m + 2) (by omega)
      have h2 := primeCount_succ (m + 3)
      have h3 := primeCount_succ (m + 2)
      have heven : isPrime (m + 3) = false ∨ isPrime (m + 4) = false := by
        rcases Nat.even_or_odd m with he | ho
        · obtain ⟨t, ht⟩ := he
          right
          exact isPrime_even_false (by omega) (by omega)
        · obtain ⟨t, ht⟩ := ho
          left
          exact isPrime_even_false (by omega) (by omega)
      rw [show m + 3 + 1 = m + 4 by omega] at h2
      rw [show m + 2 + 1 = m + 3 by omega] at h3
      rcases heven with he | he
      · rw [he, if_neg (by simp)] at h3
        split at h2 <;> omega
      · rw [he, if_neg (by simp)] at h2
        split at h3 <;> omega

theorem phiPix_eq {x a : ℕ} (hx : 1 ≤ x) (hsq : primeCount (isqrt x) ≤ a) :
    phiPix x a = (legendrePhi x a : ℤ) := by
  rw [phiPix, piNoprint]
  by_cases ha : (a : ℤ) ≤ (primeCount x : ℤ)
  · rw [if_pos ha]
    have hax : a ≤ primeCount x := by exact_mod_cast ha
    have hmain := legendrePhi_pix hx hsq hax
    omega
  · rw [if_neg ha]
    have hax : primeCount x ≤ a := by
      have := not_le.mp ha
      omega
    rw [legendrePhi_eq_one_of_count hx hax]
    norm_num

theorem phiSumLoop_correct (ctx : PhiCtx) (x a : ℕ)
    (hxa : ∀ j, j ≤ a → primeSeq j < x) :
    ∀ k i mac sum, k + i = a + 1 → 1 ≤ i →
      sum = (legendrePhi x (i - 1) : ℤ) →
      phiSumLoop ctx x k i mac sum = (legendrePhi x a : ℤ) := by
  intro k
  induction k with
  | zero =>
    intro i mac sum hk hi hsum
    have hia : i - 1 = a := by omega
    rw [hia] at hsum
    exact hsum
  | succ k ih =>
    intro i mac sum hk hi hsum
    have hx1 : 1 ≤ x := by
      have := hxa 0 (by omega)
      omega
    have hxp : 1 ≤ x / primeSeq i := by
      have hpi : primeSeq i < x := hxa i (by omega)
      have hp2 : 2 ≤ primeSeq i := primeSeq_two_le (by omega)
      exact (Nat.one_le_div_iff (by omega)).mpr (le_of_lt hpi)
    show phiSumLoop ctx x k (i + 1)
        (phiCachePhi ctx (-1) (x / primeSeq i) (i - 1) mac).2
        (sum + (phiCachePhi ctx (-1) (x / primeSeq i) (i - 1) mac).1) =
        (legendrePhi x a : ℤ)
    refine ih (i + 1) _ _ (by omega) (by omega) ?_
    have hr : (phiCachePhi ctx (-1) (x / primeSeq i) (i - 1) mac).1 =
        (-1) * (legendrePhi (x / primeSeq i) (i - 1) : ℤ) := by
      rw [phiCachePhi]
      exact phiF_correct ctx (i - 1 + 1) (-1) (x / primeSeq i) (i - 1) mac hxp
        (by omega)
    have hrec := legendrePhi_rec x (i - 1)
    rw [show i - 1 + 1 = i by omega] at hrec
    have hrec' : (legendrePhi x (i - 1) : ℤ) =
        (legendrePhi x i : ℤ) + (legendrePhi (x / primeSeq i) (i - 1) : ℤ) := by
      exact_mod_cast hrec
    rw [hr, hsum, show i + 1 - 1 = i by omega]
    linarith

/-- `phi_OpenMP(x, a, threads)` computes φ(x, a) for all nonnegative inputs,
for every upper-bound oracle satisfying its contract and every cache
geometry. -/
theorem phiOpenMP_eq (pixUpper : ℕ → ℕ) (hpix : ∀ n, primeCount n ≤ pixUpper n)
    (cs ca : ℕ) (x a : ℤ) (hx : 0 ≤ x) (ha : 0 ≤ a) :
    phiOpenMP pixUpper cs ca x a = (legendrePhi x.toNat a.toNat : ℤ) := by
  rw [phiOpenMP]
  by_cases h1 : x < 1
  · rw [if_pos h1]
    have hx0 : x = 0 := by omega
    subst hx0
    rw [show (0 : ℤ).toNat = 0 from rfl, legendrePhi_x_zero]
    norm_num
  rw [if_neg h1]
  by_cases h2 : a < 1
  · rw [if_pos h2]
    have ha0 : a = 0 := by omega
    subst ha0
    rw [show (0 : ℤ).toNat = 0 from rfl, legendrePhi_a_zero]
    omega
  rw [if_neg h2]
  have hx1 : 1 ≤ x.toNat := by omega
  have ha1 : 1 ≤ a.toNat := by omega
  by_cases h3 : a > x / 2
  · rw [if_pos h3]
    have hhalf := primeCount_le_half x.toNat
    have hcount : primeCount x.toNat ≤ a.toNat := by omega
    rw [legendrePhi_eq_one_of_count hx1 hcount]
    norm_num
  rw [if_neg h3]
  by_cases h4 : isPhiTiny a.toNat = true
  · rw [if_pos h4, phiTiny_eq]
  rw [if_neg h4]
  by_cases h5 : pixUpper x.toNat ≤ a.toNat
  · rw [if_pos h5]
    have hcount : primeCount x.toNat ≤ a.toNat := le_trans (hpix x.toNat) h5
    rw [legendrePhi_eq_one_of_count hx1 hcount]
    norm_num
  rw [if_neg h5]
  by_cases h6 : pixUpper (isqrt x.toNat) < a.toNat
  · rw [if_pos h6]
    exact phiPix_eq hx1 (le_trans (hpix (isqrt x.toNat)) (le_of_lt h6))
  rw [if_neg h6]
  by_cases h7 : primeCount (isqrt x.toNat) < a.toNat
  · rw [if_pos h7]
    exact phiPix_eq hx1 (le_of_lt h7)
  rw [if_neg h7]
  have h7' : a.toNat ≤ primeCount (isqrt x.toNat) := not_lt.mp h7
  have h8 : 8 ≤ a.toNat := by
    have : ¬ (a.toNat ≤ phiTinyMaxA) := by
      intro hle
      exact h4 (by rw [isPhiTiny]; exact decide_eq_true hle)
    have h7eq : phiTinyMaxA = 7 := rfl
    omega
  have hmin : min phiTinyMaxA a.toNat = 7 := by
    have h7eq : phiTinyMaxA = 7 := rfl
    omega
  rw [hmin]
  have hsq19 : 19 ≤ isqrt x.toNat := by
    have hle : primeSeq 8 ≤ isqrt x.toNat :=
      primeSeq_le_iff.mpr (le_trans h8 h7')
    have : primeSeq 8 = 19 := by decide
    omega
  have hxa : ∀ j, j ≤ a.toNat → primeSeq j < x.toNat := by
    intro j hj
    have h1 : primeSeq j ≤ primeSeq a.toNat :=
      primeSeq_strictMono.monotone hj
    have h2 : primeSeq a.toNat ≤ isqrt x.toNat := primeSeq_le_iff.mpr h7'
    have h3 : isqrt x.toNat < x.toNat := by
      have hss := Nat.sqrt_le_self x.toNat
      have hiq : isqrt x.toNat = Nat.sqrt x.toNat := rfl
      have h2x : 1 < x.toNat := by omega
      rw [hiq]
      exact Nat.sqrt_lt_self h2x
    omega
  refine phiSumLoop_correct _ x.toNat a.toNat hxa _ 8 _ _ (by omega) (by omega) ?_
  rw [show (8 : ℕ) - 1 = 7 from rfl, phiTiny_eq]

/-- C2 (counterexample): the claim asserts `phi(x, a) = 1` whenever
`primes[a] > x`, but at `x = 0`, `a = 1` we have `primes[1] = 2 > 0` while the
public `phi` returns 0 (the `x < 1` shortcut precedes every other branch). -/
theorem c2_phi_public_counterexample :
    (0 : ℤ) < (primeSeq 1 : ℤ) ∧ phi primeCount 0 0 0 1 = 0 ∧
      phi primeCount 0 0 0 1 ≠ 1 := by
  refine ⟨by decide, rfl, by decide⟩

/-- C2 (amended): for every x ≥ 0 and a ≥ 0 the public `phi(x, a, threads)`
returns the count of integers in [1, x] not divisible by any of the first a
primes; in particular `phi(x, 0) = x` for x ≥ 0, `phi(0, a) = 0` for every a,
and `phi(x, a) = 1` whenever `primes[a] > x ≥ 1`.  The float-based
`pix_upper` is an oracle constrained by its contract `π(n) ≤ pixUpper n`;
the cache geometry is arbitrary. -/
theorem c2_phi_public_correct (pixUpper : ℕ → ℕ)
    (hpix : ∀ n, primeCount n ≤ pixUpper n) (cs ca : ℕ) (x a : ℤ)
    (hx : 0 ≤ x) (ha : 0 ≤ a) :
    phi pixUpper cs ca x a =
      (((Finset.Icc 1 x.toNat).filter (fun m => coprimeFirst a.toNat m)).card : ℤ) ∧
    phi pixUpper cs ca x 0 = x ∧
    phi pixUpper cs ca 0 a = 0 ∧
    (1 ≤ x → x < (primeSeq a.toNat : ℤ) → phi pixUpper cs ca x a = 1) := by
  have hmain := phiOpenMP_eq pixUpper hpix cs ca x a hx ha
  refine ⟨hmain, ?_, ?_, ?_⟩
  · have h0 := phiOpenMP_eq pixUpper hpix cs ca x 0 hx (by omega)
    rw [phi, h0, show (0 : ℤ).toNat = 0 from rfl, legendrePhi_a_zero]
    omega
  · have h0 := phiOpenMP_eq pixUpper hpix cs ca 0 a (by omega) ha
    rw [phi, h0, show (0 : ℤ).toNat = 0 from rfl, legendrePhi_x_zero]
    norm_num
  · intro hx1 hxa
    have hx1' : 1 ≤ x.toNat := by omega
    have hlt : x.toNat < primeSeq a.toNat := by omega
    have hlt' : x.toNat < primeSeq (a.toNat + 1) :=
      lt_trans hlt (primeSeq_lt_succ a.toNat)
    show phiOpenMP pixUpper cs ca x a = 1
    rw [phiOpenMP_eq pixUpper hpix cs ca x a hx ha,
      legendrePhi_eq_one hx1' hlt']
    norm_num

/-- Witness for C2 (amended) at pixUpper = π, geometry (8, 40), x = 100, a = 4. -/
theorem c2_phi_public_correct_witness :
    (∀ n, primeCount n ≤ primeCount n) ∧ ((0 : ℤ) ≤ 100 ∧ (0 : ℤ) ≤ 4) ∧
    (phi primeCount 8 40 100 4 =
      (((Finset.Icc 1 (100 : ℤ).toNat).filter
        (fun m => coprimeFirst (4 : ℤ).toNat m)).card : ℤ) ∧
    phi primeCount 8 40 100 0 = 100 ∧
    phi primeCount 8 40 0 4 = 0 ∧
    ((1 : ℤ) ≤ 100 → (100 : ℤ) < (primeSeq (4 : ℤ).toNat : ℤ) →
      phi primeCount 8 40 100 4 = 1)) :=
  ⟨fun _ => le_refl _, ⟨by norm_num, by norm_num⟩,
    c2_phi_public_correct primeCount (fun _ => le_refl _) 8 40 100 4
      (by norm_num) (by norm_num)⟩

/-- C4: for every x and a with `primes[a] < x`, a above PhiTiny's base, and
`x < primes[a+1]²`, `PhiCache::phi<SIGN>(x, a)` returns
SIGN · (π(x) − a + 1) — for every cache geometry, cache state and SIGN —
and equivalently φ(x, a) = π(x) − a + 1 there (the hypotheses give
a ≥ π(√x) and a ≤ π(x)). -/
theorem c4_phi_pix_shortcut (ctx : PhiCtx) (sign : ℤ) (x a mac : ℕ)
    (hpa : primeSeq a < x) (ha : phiTinyMaxA < a)
    (hx : x < primeSeq (a + 1) * primeSeq (a + 1)) :
    (phiCachePhi ctx sign x a mac).1 = sign * ((primeCount x : ℤ) - a + 1) ∧
    (legendrePhi x a : ℤ) = (primeCount x : ℤ) - a + 1 := by
  have h7 : phiTinyMaxA = 7 := rfl
  have hx1 : 1 ≤ x := by
    have := primeSeq_two_le (show 1 ≤ a by omega)
    omega
  have hsq : primeCount (Nat.sqrt x) ≤ a := by
    have hs : Nat.sqrt x < primeSeq (a + 1) := by
      rw [Nat.sqrt_lt']
      rw [pow_two]
      exact hx
    have := primeCount_lt_iff.mpr hs
    omega
  have hax : a ≤ primeCount x := primeSeq_le_iff.mp (le_of_lt hpa)
  have hmain := legendrePhi_pix hx1 hsq hax
  have hphi : (legendrePhi x a : ℤ) = (primeCount x : ℤ) - a + 1 := by omega
  refine ⟨?_, hphi⟩
  rw [phiCachePhi, phiF_correct ctx (a + 1) sign x a mac hx1 (by omega), hphi]

/-- Witness for C4 at ctx = (0, 1, 0), sign = 1, x = 100, a = 8, mac = 0. -/
theorem c4_phi_pix_shortcut_witness :
    (primeSeq 8 < 100 ∧ phiTinyMaxA < 8 ∧ 100 < primeSeq 9 * primeSeq 9) ∧
    ((phiCachePhi ⟨0, 1, 0⟩ 1 100 8 0).1 = 1 * ((primeCount 100 : ℤ) - 8 + 1) ∧
     (legendrePhi 100 8 : ℤ) = (primeCount 100 : ℤ) - 8 + 1) :=
  ⟨⟨by decide, by decide, by decide⟩,
    c4_phi_pix_shortcut ⟨0, 1, 0⟩ 1 100 8 0 (by decide) (by decide) (by decide)⟩

theorem getD_map_range {n j : ℕ} (f : ℕ → ℕ) (hj : j < n) :
    ((List.range n).map f).getD j 0 = f j := by
  rw [List.getD_eq_getElem?_getD, List.getElem?_map, List.getElem?_range hj]
  rfl

theorem take_map_sum_eq_range_sum (ws : List (ℕ → Bool)) :
    ∀ j, j ≤ ws.length →
    ((ws.take j).map popcnt64).sum = ∑ t in Finset.range j, popcnt64 (wget ws t) := by
  intro j
  induction j with
  | zero => simp
  | succ j ih =>
    intro hj
    have hjl : j < ws.length := by omega
    rw [Finset.sum_range_succ, ← ih (by omega), List.take_succ, List.map_append,
      List.sum_append, List.getElem?_eq_getElem hjl]
    have hw : wget ws j = ws[j] := by
      rw [wget, List.getD_eq_getElem?_getD, List.getElem?_eq_getElem hjl]
      rfl
    rw [hw]
    rfl

theorem cacheCounts_getD_sum (ws : List (ℕ → Bool)) {j : ℕ} (hj : j < ws.length) :
    (cacheCounts ws).getD j 0 = ∑ t in Finset.range j, popcnt64 (wget ws t) := by
  rw [cacheCounts, getD_map_range _ hj,
    take_map_sum_eq_range_sum ws j (le_of_lt hj)]

/-- C7 (counterexample): the claim reads `sieve_[i][j].count` as the popcount
of windows `0..j` inclusive; but `init_cache` stores the cumulative count
*before* adding window j's popcount.  At geometry maxXSize = 1, level 8,
window 0, the stored count is 0 while window 0 itself has set bits. -/
theorem c7_cache_count_counterexample :
    (cacheCounts (cacheBits 1 8)).getD 0 0 ≠ popcnt64 (wget (cacheBits 1 8) 0) := by
  decide

/-- C7 (amended): after caching level i (PhiTiny base < i), for every window
j: `sieve_[i][j].bits` has bit k set iff 240·j + residue(k) is coprime to the
first i primes, `sieve_[i][j].count` is the count of set bits in the windows
`0..j` *exclusive of j* (i.e. windows with index < j), and consequently
`phi_cache(x, i)` returns φ(x, i) for every x ≤ max_x. -/
theorem c7_cache_invariant (maxXSize i : ℕ) (hi : phiTinyMaxA < i)
    (hsize : 1 ≤ maxXSize) :
    (∀ j < maxXSize, ∀ k < 64,
      (wget (cacheBits maxXSize i) j k = true ↔ coprimeFirst i (bitValue j k))) ∧
    (∀ j < maxXSize, (cacheCounts (cacheBits maxXSize i)).getD j 0 =
      ∑ t in Finset.range j, popcnt64 (wget (cacheBits maxXSize i) t)) ∧
    (∀ x ≤ cacheMaxX maxXSize, phiCacheLookup maxXSize x i = legendrePhi x i) := by
  have h7 : phiTinyMaxA = 7 := rfl
  have h3 : 3 ≤ i := by omega
  refine ⟨fun j hj k hk => cacheBits_invariant maxXSize i h3 j hj k hk,
    fun j hj => ?_, fun x hx => phiCacheLookup_eq h3 hx hsize⟩
  have hlen := cacheBits_length maxXSize i
  exact cacheCounts_getD_sum _ (by omega)

/-- Witness for C7 (amended) at maxXSize = 1, level i = 8. -/
theorem c7_cache_invariant_witness :
    (phiTinyMaxA < 8 ∧ 1 ≤ 1) ∧
    ((∀ j < 1, ∀ k < 64,
      (wget (cacheBits 1 8) j k = true ↔ coprimeFirst 8 (bitValue j k))) ∧
    (∀ j < 1, (cacheCounts (cacheBits 1 8)).getD j 0 =
      ∑ t in Finset.range j, popcnt64 (wget (cacheBits 1 8) t)) ∧
    (∀ x ≤ cacheMaxX 1, phiCacheLookup 1 x 8 = legendrePhi x 8)) :=
  ⟨⟨by decide, by decide⟩, c7_cache_invariant 1 8 (by decide) (by decide)⟩

/-! ## `generate_phi(n, max_a, buf)` -/

/-- The filling loop of `generate_phi`; element t of the returned list is
`buf[i + t]`.  `prev` carries `buf[i-1]`, `mac` the cache state. -/
def generatePhiGo (ctx : PhiCtx) (n piSqrtn piN : ℕ) :
    ℕ → ℕ → ℤ → ℕ → List ℤ
  | 0, _, _, _ => []
  | fuel + 1, i, prev, mac =>
    let v : ℤ :=
      if i = 0 then (n : ℤ)
      else if i ≤ piSqrtn then
        prev - (phiCachePhi ctx 1 (n / primeSeq i) (i - 1) mac).1
      else if i ≤ piN then (piN : ℤ) - i + 1
      else 1
    let mac' : ℕ :=
      if i = 0 then mac
      else if i ≤ piSqrtn then
        (phiCachePhi ctx 1 (n / primeSeq i) (i - 1) mac).2
      else mac
    v :: generatePhiGo ctx n piSqrtn piN fuel (i + 1) v mac'

/-- `generate_phi(n, max_a, buf)` from `phi.cpp`: the list of buffer entries
`buf[0..max_a]`.  `PiTable(√n)` and `pi(n)` are exact π (spec-modelled);
the per-cache geometry is the oracle pair `(cs, ca)`. -/
def generate_phi (cs ca n maxA : ℕ) : List ℤ :=
  generatePhiGo ⟨isqrt n + 1, cs, ca⟩ n (primeCount (isqrt n)) (primeCount n)
    (maxA + 1) 0 0 0

theorem generatePhiGo_correct (cs ca n : ℕ) (hn : 1 ≤ n) :
    ∀ fuel i mac prev,
      (i = 0 ∨ (1 ≤ i ∧ prev = (legendrePhi n (i - 1) : ℤ))) →
      ∀ t, t < fuel →
        (generatePhiGo ⟨isqrt n + 1, cs, ca⟩ n (primeCount (isqrt n))
          (primeCount n) fuel i prev mac).getD t 0 =
          (legendrePhi n (i + t) : ℤ) := by
  intro fuel
  induction fuel with
  | zero => omega
  | succ fuel ih =>
    intro i mac prev hprev t ht
    have hsqeq : isqrt n = Nat.sqrt n := rfl
    -- the value written at index i is φ(n, i)
    have hv : (if i = 0 then (n : ℤ)
        else if i ≤ primeCount (isqrt n) then
          prev - (phiCachePhi ⟨isqrt n + 1, cs, ca⟩ 1 (n / primeSeq i) (i - 1) mac).1
        else if i ≤ primeCount n then (primeCount n : ℤ) - i + 1
        else 1) = (legendrePhi n i : ℤ) := by
      by_cases h0 : i = 0
      · subst h0
        rw [if_pos rfl, legendrePhi_a_zero]
      rw [if_neg h0]
      rcases hprev with h | ⟨hi1, hprev⟩
      · omega
      by_cases h1 : i ≤ primeCount (isqrt n)
      · rw [if_pos h1]
        have hpi : primeSeq i ≤ isqrt n := primeSeq_le_iff.mpr h1
        have hpn : primeSeq i ≤ n := le_trans hpi (by
          rw [hsqeq]; exact Nat.sqrt_le_self n)
        have hp2 : 2 ≤ primeSeq i := primeSeq_two_le hi1
        have hxp : 1 ≤ n / primeSeq i :=
          (Nat.one_le_div_iff (by omega)).mpr hpn
        have hcache : (phiCachePhi ⟨isqrt n + 1, cs, ca⟩ 1 (n / primeSeq i)
            (i - 1) mac).1 = (legendrePhi (n / primeSeq i) (i - 1) : ℤ) := by
          rw [phiCachePhi,
            phiF_correct _ (i - 1 + 1) 1 (n / primeSeq i) (i - 1) mac hxp
              (by omega)]
          ring
        rw [hcache, hprev]
        have hrec := legendrePhi_rec n (i - 1)
        rw [show i - 1 + 1 = i by omega] at hrec
        have hrec' : (legendrePhi n (i - 1) : ℤ) =
            (legendrePhi n i : ℤ) + (legendrePhi (n / primeSeq i) (i - 1) : ℤ) := by
          exact_mod_cast hrec
        linarith
      rw [if_neg h1]
      by_cases h2 : i ≤ primeCount n
      · rw [if_pos h2]
        have hsq : primeCount (Nat.sqrt n) ≤ i := by
          rw [← hsqeq]; omega
        have := legendrePhi_pix hn hsq h2
        omega
      · rw [if_neg h2]
        rw [legendrePhi_eq_one_of_count hn (by omega)]
        norm_num
    show ((if i = 0 then (n : ℤ)
        else if i ≤ primeCount (isqrt n) then
          prev - (phiCachePhi ⟨isqrt n + 1, cs, ca⟩ 1 (n / primeSeq i) (i - 1) mac).1
        else if i ≤ primeCount n then (primeCount n : ℤ) - i + 1
        else 1) ::
      generatePhiGo ⟨isqrt n + 1, cs, ca⟩ n (primeCount (isqrt n))
        (primeCount n) fuel (i + 1) _ _).getD t 0 = (legendrePhi n (i + t) : ℤ)
    cases t with
    | zero =>
      rw [List.getD_cons_zero, show i + 0 = i from rfl]
      exact hv
    | succ t =>
      rw [List.getD_cons_succ, show i + (t + 1) = (i + 1) + t by omega]
      refine ih (i + 1) _ _ (Or.inr ⟨by omega, ?_⟩) t (by omega)
      rw [show i + 1 - 1 = i by omega, hv]

/-- C10: for every n ≥ 1, cache geometry, and max_a, after
`generate_phi(n, max_a, buf)` the entry `buf[i]` equals φ(n, i) for every
0 ≤ i ≤ max_a; in particular buf[0] = n,
buf[i] = buf[i−1] − φ(⌊n/p_i⌋, i−1) for 1 ≤ i ≤ π(√n),
buf[i] = π(n) − i + 1 for π(√n) < i ≤ π(n), and buf[i] = 1 for i > π(n). -/
theorem c10_generate_phi (cs ca n maxA : ℕ) (hn : 1 ≤ n) :
    (∀ i ≤ maxA, (generate_phi cs ca n maxA).getD i 0 = (legendrePhi n i : ℤ)) ∧
    (generate_phi cs ca n maxA).getD 0 0 = (n : ℤ) ∧
    (∀ i, 1 ≤ i → i ≤ maxA → i ≤ primeCount (isqrt n) →
      (generate_phi cs ca n maxA).getD i 0 =
        (generate_phi cs ca n maxA).getD (i - 1) 0 -
          (legendrePhi (n / primeSeq i) (i - 1) : ℤ)) ∧
    (∀ i, i ≤ maxA → primeCount (isqrt n) < i → i ≤ primeCount n →
      (generate_phi cs ca n maxA).getD i 0 = (primeCount n : ℤ) - i + 1) ∧
    (∀ i, i ≤ maxA → primeCount n < i →
      (generate_phi cs ca n maxA).getD i 0 = 1) := by
  have hmain : ∀ i ≤ maxA,
      (generate_phi cs ca n maxA).getD i 0 = (legendrePhi n i : ℤ) := by
    intro i hi
    have := generatePhiGo_correct cs ca n hn (maxA + 1) 0 0 0 (Or.inl rfl) i
      (by omega)
    rw [generate_phi]
    rw [this]
    rw [show 0 + i = i by omega]
  refine ⟨hmain, ?_, ?_, ?_, ?_⟩
  · rw [hmain 0 (by omega), legendrePhi_a_zero]
  · intro i hi1 hile hisq
    rw [hmain i hile, hmain (i - 1) (by omega)]
    have hrec := legendrePhi_rec n (i - 1)
    rw [show i - 1 + 1 = i by omega] at hrec
    have hrec' : (legendrePhi n (i - 1) : ℤ) =
        (legendrePhi n i : ℤ) + (legendrePhi (n / primeSeq i) (i - 1) : ℤ) := by
      exact_mod_cast hrec
    linarith
  · intro i hile hsq hpi
    rw [hmain i hile]
    have hsq' : primeCount (Nat.sqrt n) ≤ i := by
      have hpc : primeCount (isqrt n) = primeCount (Nat.sqrt n) := rfl
      omega
    have := legendrePhi_pix hn hsq' hpi
    omega
  · intro i hile hpi
    rw [hmain i hile, legendrePhi_eq_one_of_count hn (by omega)]
    norm_num

/-- Witness for C10 at cs = 1, ca = 0, n = 10, maxA = 3. -/
theorem c10_generate_phi_witness :
    (1 ≤ 10) ∧
    ((∀ i ≤ 3, (generate_phi 1 0 10 3).getD i 0 = (legendrePhi 10 i : ℤ)) ∧
    (generate_phi 1 0 10 3).getD 0 0 = ((10 : ℕ) : ℤ) ∧
    (∀ i, 1 ≤ i → i ≤ 3 → i ≤ primeCount (isqrt 10) →
      (generate_phi 1 0 10 3).getD i 0 =
        (generate_phi 1 0 10 3).getD (i - 1) 0 -
          (legendrePhi (10 / primeSeq i) (i - 1) : ℤ)) ∧
    (∀ i, i ≤ 3 → primeCount (isqrt 10) < i → i ≤ primeCount 10 →
      (generate_phi 1 0 10 3).getD i 0 = (primeCount 10 : ℤ) - i + 1) ∧
    (∀ i, i ≤ 3 → primeCount 10 < i →
      (generate_phi 1 0 10 3).getD i 0 = 1)) :=
  ⟨by decide, c10_generate_phi 1 0 10 3 (by decide)⟩

/-! ## `S2_trivial(x, y, z, c, pi, primes)` (Deléglise–Rivat, 64-bit)

The `pi` and `primes` tables passed in are, per the spec's interface
contract, exact up to their bounds; they are modelled by `primeCount` and
`primeSeq`. -/

/-- The `for (b = max(c, pi_sqrtz + 1); b < pi_y; b++)` loop of
`S2_trivial`, with countdown fuel `pi_y − b`. -/
def S2_trivialLoop (x piY : ℕ) : ℕ → ℕ → ℤ → ℤ
  | 0, _, s => s
  | fuel + 1, b, s =>
    S2_trivialLoop x piY fuel (b + 1)
      (s + ((piY : ℤ) -
        (primeCount (max (x / (primeSeq b * primeSeq b)) (primeSeq b)) : ℤ)))

/-- `S2_trivial(x, y, z, c, pi, primes)` from `pi_deleglise_rivat1.cpp`. -/
def S2_trivial (x y z c : ℕ) : ℤ :=
  S2_trivialLoop x (primeCount y)
    (primeCount y - max c (primeCount (min (isqrt z) y) + 1))
    (max c (primeCount (min (isqrt z) y) + 1)) 0

/-- The claim's formula, written from the spec's words: sum over b in
[max(c, π(√z)) + 1, π(y)) of π(y) − π(max(⌊x/p_b²⌋, p_b)). -/
def S2_trivialSpecFormula (x y z c : ℕ) : ℤ :=
  ∑ b in Finset.Ico (max c (primeCount (isqrt z)) + 1) (primeCount y),
    ((primeCount y : ℤ) -
      (primeCount (max (x / (primeSeq b * primeSeq b)) (primeSeq b)) : ℤ))

theorem S2_trivialLoop_correct (x piY : ℕ) :
    ∀ fuel b s, S2_trivialLoop x piY fuel b s =
      s + ∑ t in Finset.Ico b (b + fuel),
        ((piY : ℤ) -
          (primeCount (max (x / (primeSeq t * primeSeq t)) (primeSeq t)) : ℤ)) := by
  intro fuel
  induction fuel with
  | zero =>
    intro b s
    rw [show b + 0 = b from rfl, Finset.Ico_self, Finset.sum_empty, add_zero]
    rfl
  | succ fuel ih =>
    intro b s
    show S2_trivialLoop x piY fuel (b + 1) _ = _
    rw [ih]
    rw [Finset.sum_eq_sum_Ico_succ_bot (show b < b + (fuel + 1) by omega)]
    rw [show b + (fuel + 1) = (b + 1) + fuel by omega]
    ring

/-- C5 (counterexample): at x = 9, y = 10, z = 1, c = 2 the code's loop
starts at b = max(c, π(√z) + 1) = 2 and returns 3, while the claim's range
[max(c, π(√z)) + 1, π(y)) starts at b = 3 and sums to 1. -/
theorem c5_s2_trivial_counterexample :
    S2_trivial 9 10 1 2 = 3 ∧ S2_trivialSpecFormula 9 10 1 2 = 1 ∧
      S2_trivial 9 10 1 2 ≠ S2_trivialSpecFormula 9 10 1 2 := by
  refine ⟨by decide, ?_, by decide⟩
  show (∑ b in Finset.Ico (max 2 (primeCount (isqrt 1)) + 1) (primeCount 10),
    ((primeCount 10 : ℤ) -
      (primeCount (max (9 / (primeSeq b * primeSeq b)) (primeSeq b)) : ℤ))) = 1
  rw [show primeCount (isqrt 1) = 0 from by decide,
    show primeCount 10 = 4 from by decide]
  decide

/-- C5 (amended): `S2_trivial(x, y, z, c, pi, primes)` returns exactly the
sum of π(y) − π(max(⌊x/p_b²⌋, p_b)) over b in the half-open interval
[max(c, π(min(√z, y)) + 1), π(y)) — the lower end is max(c, π(√z)+1), not
max(c, π(√z)) + 1, and the code evaluates π at min(√z, y). -/
theorem c5_s2_trivial (x y z c : ℕ) :
    S2_trivial x y z c =
      ∑ b in Finset.Ico (max c (primeCount (min (isqrt z) y) + 1)) (primeCount y),
        ((primeCount y : ℤ) -
          (primeCount (max (x / (primeSeq b * primeSeq b)) (primeSeq b)) : ℤ)) := by
  rw [S2_trivial, S2_trivialLoop_correct, zero_add]
  by_cases hle : max c (primeCount (min (isqrt z) y) + 1) ≤ primeCount y
  · rw [show max c (primeCount (min (isqrt z) y) + 1) +
      (primeCount y - max c (primeCount (min (isqrt z) y) + 1)) = primeCount y
      by omega]
  · rw [show primeCount y - max c (primeCount (min (isqrt z) y) + 1) = 0
      by omega]
    rw [show max c (primeCount (min (isqrt z) y) + 1) + 0 =
      max c (primeCount (min (isqrt z) y) + 1) from rfl]
    rw [Finset.Ico_self, Finset.sum_empty]
    rw [Finset.Ico_eq_empty (by omega), Finset.sum_empty]

/-- Witness for C5 (amended) at x = 9, y = 10, z = 1, c = 2. -/
theorem c5_s2_trivial_witness :
    S2_trivial 9 10 1 2 =
      ∑ b in Finset.Ico (max 2 (primeCount (min (isqrt 1) 10) + 1)) (primeCount 10),
        ((primeCount 10 : ℤ) -
          (primeCount (max (9 / (primeSeq b * primeSeq b)) (primeSeq b)) : ℤ)) :=
  c5_s2_trivial 9 10 1 2

/-! ## The square-free descent `C1<MU>` of `AC.cpp` (Gourdon)

Only termination is at stake (claim C9), so the `primes`, `pi` tables are
arbitrary functions and all values are exact integers. -/

/-- One activation's `for (i++; i <= pi_y; i++)` loop of `C1<MU>`, with
countdown fuel `pi_y − i` and the recursive call abstracted as `rec`.
Returns `none` if a recursive call runs out of fuel. -/
def C1Loop (primes pi : ℕ → ℕ) (xp b m minM maxM : ℕ) (MU : ℤ)
    (rec : ℤ → ℕ → ℕ → Option ℤ) : ℕ → ℕ → ℤ → Option ℤ
  | 0, _, sum => some sum
  | k + 1, i, sum =>
    if maxM < m * primes i then some sum
    else
      match rec (-MU) i (m * primes i) with
      | none => none
      | some s =>
        C1Loop primes pi xp b m minM maxM MU rec k (i + 1)
          ((if minM < m * primes i then
              sum + MU * ((pi (xp / (m * primes i)) : ℤ) - b + 2)
            else sum) + s)

/-- `C1<MU>(xp, b, i, pi_y, m, min_m, max_m, primes, pi)` from `AC.cpp`,
with explicit recursion fuel. -/
def C1F (primes pi : ℕ → ℕ) (xp b piY minM maxM : ℕ) :
    ℕ → ℤ → ℕ → ℕ → Option ℤ
  | 0, _, _, _ => none
  | fuel + 1, MU, i, m =>
    C1Loop primes pi xp b m minM maxM MU
      (fun mu i' m' => C1F primes pi xp b piY minM maxM fuel mu i' m')
      (piY - i) (i + 1) 0

theorem C1Loop_total (primes pi : ℕ → ℕ) (xp b m minM maxM : ℕ) (MU : ℤ)
    (rec : ℤ → ℕ → ℕ → Option ℤ) :
    ∀ k i sum,
      (∀ mu i' m', i ≤ i' → i' < i + k → (rec mu i' m').isSome = true) →
      (C1Loop primes pi xp b m minM maxM MU rec k i sum).isSome = true := by
  intro k
  induction k with
  | zero => intro i sum _; rfl
  | succ k ih =>
    intro i sum hrec
    rw [C1Loop]
    by_cases hmax : maxM < m * primes i
    · rw [if_pos hmax]; rfl
    · rw [if_neg hmax]
      have h := hrec (-MU) i (m * primes i) (le_refl i) (by omega)
      obtain ⟨s, hs⟩ := Option.isSome_iff_exists.mp h
      rw [hs]
      exact ih (i + 1) _ (fun mu i' m' h1 h2 => hrec mu i' m' (by omega) (by omega))

theorem C1F_total (primes pi : ℕ → ℕ) (xp b piY minM maxM : ℕ) :
    ∀ fuel (MU : ℤ) i m, piY + 1 - i < fuel →
      (C1F primes pi xp b piY minM maxM fuel MU i m).isSome = true := by
  intro fuel
  induction fuel with
  | zero => omega
  | succ fuel ih =>
    intro MU i m hfuel
    rw [C1F]
    refine C1Loop_total primes pi xp b m minM maxM MU _ (piY - i) (i + 1) 0 ?_
    intro mu i' m' h1 h2
    exact ih mu i' m' (by omega)

/-- C9: the mutually recursive square-free descent `C1<MU>` terminates for
every input in which `primes` is ascending with `primes[j] ≥ 2` for `j > b`
and `m ≥ 1`: each recursive call strictly increases i (bounded by pi_y), so
fuel `pi_y + 2 − i` suffices and `C1` is a total function — in fact for
every table, since the loop bound alone forces termination. -/
theorem c9_C1_terminates (primes pi : ℕ → ℕ) (xp b piY minM maxM : ℕ)
    (hasc : ∀ j k, j ≤ k → primes j ≤ primes k)
    (hp2 : ∀ j, b < j → 2 ≤ primes j)
    (MU : ℤ) (i m : ℕ) (hm : 1 ≤ m) (fuel : ℕ) (hfuel : piY + 1 - i < fuel) :
    (C1F primes pi xp b piY minM maxM fuel MU i m).isSome = true :=
  C1F_total primes pi xp b piY minM maxM fuel MU i m hfuel

/-- Witness for C9 at primes = primeSeq, pi = π, xp = 100, b = 1, pi_y = 4,
min_m = 1, max_m = 30, MU = 1, i = 1, m = 1, fuel = 5. -/
theorem c9_C1_terminates_witness :
    ((∀ j k, j ≤ k → primeSeq j ≤ primeSeq k) ∧
     (∀ j, 1 < j → 2 ≤ primeSeq j) ∧ 1 ≤ 1 ∧ 4 + 1 - 1 < 5) ∧
    (C1F primeSeq primeCount 100 1 4 1 30 5 1 1 1).isSome = true :=
  ⟨⟨fun j k h => primeSeq_strictMono.monotone h,
    fun j hj => primeSeq_two_le (by omega), le_refl 1, by omega⟩,
    c9_C1_terminates primeSeq primeCount 100 1 4 1 30
      (fun j k h => primeSeq_strictMono.monotone h)
      (fun j hj => primeSeq_two_le (by omega)) 1 1 1 (by omega) 5 (by omega)⟩

/-! ## The `pi_deleglise_rivat4(x)` input guards -/

/-- Modelled from the spec: the spec's error kinds for the prime-counting
entry point (`Overflow`, `InputOutOfRange`). -/
inductive PrimecountError where
  | overflow
  | inputOutOfRange

/-- Modelled from the spec: `primecount::max()` is 10³¹ for the 128-bit
build. -/
def pcMax : ℤ := 10 ^ 31

/-- `pi_deleglise_rivat4(x)` from `pi_deleglise_rivat4.cpp`: the guard
structure of the entry point, with the arithmetic core (alpha, y, z, P2,
S1, S2 and the final sum) abstracted as the oracle `core`.  The order of
the two guards is the source's: `if (x < 2) return 0;` comes first, the
`x > to_maxint(primecount::max())` throw second. -/
def pi_deleglise_rivat4 (core : ℤ → ℤ) (x : ℤ) : Except PrimecountError ℤ :=
  if x < 2 then Except.ok 0
  else if x > pcMax then Except.error PrimecountError.overflow
  else Except.ok (core x)

/-- C3 (counterexample): for the negative input x = −1 the claim requires an
InputOutOfRange fatal error, but `pi_deleglise_rivat4` returns the count 0:
the `x < 2` shortcut precedes the range check (shown for one concrete
core; the guard never reaches the core). -/
theorem c3_pi_dr4_counterexample :
    (-1 : ℤ) < 0 ∧ pi_deleglise_rivat4 (fun _ => 37) (-1) = Except.ok 0 :=
  ⟨by norm_num, rfl⟩

/-- C3 (amended): for every x above the implementation-supported maximum
(10³¹) the entry point fails with Overflow and never returns a count; but
for every negative x it returns the count 0 without surfacing any error,
because the `x < 2` shortcut precedes the range check. -/
theorem c3_pi_dr4_guard (core : ℤ → ℤ) (x : ℤ) :
    (pcMax < x → pi_deleglise_rivat4 core x =
      Except.error PrimecountError.overflow) ∧
    (x < 0 → pi_deleglise_rivat4 core x = Except.ok 0) := by
  constructor
  · intro hx
    have h2 : ¬ x < 2 := by
      have : (2 : ℤ) ≤ pcMax := by norm_num [pcMax]
      omega
    rw [pi_deleglise_rivat4, if_neg h2, if_pos (by omega)]
  · intro hx
    rw [pi_deleglise_rivat4, if_pos (by omega)]

/-- Witness for C3 (amended) at core = const 0, x = 10³¹ + 1 and x = −5. -/
theorem c3_pi_dr4_guard_witness :
    pi_deleglise_rivat4 (fun _ => 0) (10 ^ 31 + 1) =
      Except.error PrimecountError.overflow ∧
    pi_deleglise_rivat4 (fun _ => 0) (-5) = Except.ok 0 :=
  ⟨(c3_pi_dr4_guard (fun _ => 0) (10 ^ 31 + 1)).1 (by norm_num [pcMax]),
   (c3_pi_dr4_guard (fun _ => 0) (-5)).2 (by norm_num)⟩

/-! ## `cross_off(prime, low, high, next_multiple, sieve, counters)`

The segment's `BitSieve` is modelled as a Bool-valued function on positions
(spec-modelled: bit = 1 iff the position's integer is still a candidate).
The counters tree's code is not in the repository; per the spec it is
specified only by its contract `query(i) = Σ_{j≤i} sieve[j]` ("any
implementation of a binary-indexed tree satisfies this contract"), so it is
modelled extensionally by its query function, `update(t)` decrementing every
prefix count at i ≥ t. -/

/-- `popcount(sieve[0..i])`, the inclusive prefix count of set bits. -/
def prefixCount (s : ℕ → Bool) (i : ℕ) : ℕ := (List.range (i + 1)).countP s

theorem prefixCount_succ (s : ℕ → Bool) (i : ℕ) :
    prefixCount s (i + 1) = prefixCount s i + (if s (i + 1) = true then 1 else 0) := by
  rw [prefixCount, prefixCount, List.range_succ, List.countP_append]
  simp [List.countP_cons]

theorem prefixCount_pos {s : ℕ → Bool} {t0 i : ℕ} (h : s t0 = true)
    (ht : t0 ≤ i) : 1 ≤ prefixCount s i := by
  rw [prefixCount]
  refine List.countP_pos.mpr ⟨t0, List.mem_range.mpr (by omega), h⟩

theorem prefixCount_unset {s : ℕ → Bool} {t0 : ℕ} (h : s t0 = true) :
    ∀ i, prefixCount (fun t => if t = t0 then false else s t) i =
      prefixCount s i - (if t0 ≤ i then 1 else 0) := by
  intro i
  induction i with
  | zero =>
    rw [prefixCount, prefixCount]
    rw [show List.range 1 = [0] from rfl]
    simp only [List.countP_cons, List.countP_nil]
    by_cases h0 : t0 = 0
    · subst h0
      rw [if_pos rfl, if_pos h, if_pos (le_refl 0)]
      simp
    · rw [if_neg (show ¬ (0 = t0) from fun hh => h0 hh.symm),
        if_neg (show ¬ t0 ≤ 0 by omega)]
      omega
  | succ i ih =>
    rw [prefixCount_succ, prefixCount_succ, ih]
    by_cases h1 : t0 = i + 1
    · subst h1
      rw [if_pos rfl,
        if_neg (show ¬ i + 1 ≤ i by omega),
        if_pos (show i + 1 ≤ i + 1 from le_refl _), if_pos h]
      simp only [Bool.false_eq_true, if_false]
      omega
    · rw [if_neg (show ¬ (i + 1 = t0) from fun hh => h1 hh.symm)]
      by_cases h2 : t0 ≤ i
      · rw [if_pos h2, if_pos (show t0 ≤ i + 1 by omega)]
        have hpos := prefixCount_pos h h2
        split <;> omega
      · rw [if_neg h2, if_neg (show ¬ t0 ≤ i + 1 by omega)]
        omega

/-- The `for (; k < high; k += prime * 2)` loop of `cross_off`, with fuel. -/
def crossOffGo (prime low high : ℕ) :
    ℕ → ℕ → (ℕ → Bool) → (ℕ → ℕ) → ℕ × (ℕ → Bool) × (ℕ → ℕ)
  | 0, k, sieve, counters => (k, sieve, counters)
  | fuel + 1, k, sieve, counters =>
    if k < high then
      if sieve (k - low) = true then
        crossOffGo prime low high fuel (k + prime * 2)
          (fun t => if t = k - low then false else sieve t)
          (fun i => counters i - (if k - low ≤ i then 1 else 0))
      else
        crossOffGo prime low high fuel (k + prime * 2) sieve counters
    else (k, sieve, counters)

/-- `cross_off(prime, low, high, &next_multiple, sieve, counters)` from
`pi_deleglise_rivat1.cpp`: returns the written-back `next_multiple`, the new
sieve and the new counters. -/
def cross_off (prime low high next : ℕ) (sieve : ℕ → Bool)
    (counters : ℕ → ℕ) : ℕ × (ℕ → Bool) × (ℕ → ℕ) :=
  crossOffGo prime low high (high / (prime * 2) + 1) next sieve counters

theorem crossOffGo_spec (prime low high : ℕ) (hp : 1 ≤ prime) :
    ∀ fuel k (sieve : ℕ → Bool) (counters : ℕ → ℕ),
      high ≤ k + prime * 2 * fuel → low ≤ k →
      (∀ i, counters i = prefixCount sieve i) →
      ((∀ t, ¬ (∃ j : ℕ, low + t = k + prime * 2 * j ∧ low + t < high) →
        (crossOffGo prime low high fuel k sieve counters).2.1 t = sieve t) ∧
      (∀ t, (∃ j : ℕ, low + t = k + prime * 2 * j ∧ low + t < high) →
        (crossOffGo prime low high fuel k sieve counters).2.1 t = false) ∧
      (∃ j : ℕ, (crossOffGo prime low high fuel k sieve counters).1 =
        k + prime * 2 * j) ∧
      high ≤ (crossOffGo prime low high fuel k sieve counters).1 ∧
      (∀ j : ℕ, high ≤ k + prime * 2 * j →
        (crossOffGo prime low high fuel k sieve counters).1 ≤ k + prime * 2 * j) ∧
      (∀ i, (crossOffGo prime low high fuel k sieve counters).2.2 i =
        prefixCount (crossOffGo prime low high fuel k sieve counters).2.1 i)) := by
  intro fuel
  induction fuel with
  | zero =>
    intro k sieve counters hfuel hlow hagree
    have hz : prime * 2 * 0 = 0 := by ring
    have hhk : high ≤ k := by omega
    refine ⟨fun t _ => rfl, fun t ht => ?_,
      ⟨0, show k = k + prime * 2 * 0 by omega⟩, hhk,
      fun j _ => Nat.le_add_right _ _, hagree⟩
    obtain ⟨j, hj1, hj2⟩ := ht
    omega
  | succ fuel ih =>
    intro k sieve counters hfuel hlow hagree
    rw [crossOffGo]
    by_cases hk : k < high
    · rw [if_pos hk]
      have hstep : prime * 2 * (fuel + 1) = prime * 2 * fuel + prime * 2 := by
        ring
      by_cases hs : sieve (k - low) = true
      · rw [if_pos hs]
        have hagree₁ : ∀ i,
            (fun i => counters i - (if k - low ≤ i then 1 else 0)) i =
              prefixCount (fun t => if t = k - low then false else sieve t) i := by
          intro i
          show counters i - (if k - low ≤ i then 1 else 0) =
            prefixCount (fun t => if t = k - low then false else sieve t) i
          rw [prefixCount_unset hs i, hagree i]
        obtain ⟨ihf, ihh, ⟨j0, ihj⟩, ihhi, ihmin, ihc⟩ :=
          ih (k + prime * 2) _ _ (by omega) (by omega) hagree₁
        refine ⟨?_, ?_, ⟨j0 + 1, by rw [ihj]; ring⟩, ihhi, ?_, ihc⟩
        · intro t hnot
          have hnot' : ¬ (∃ j : ℕ, low + t = (k + prime * 2) + prime * 2 * j ∧
              low + t < high) := by
            rintro ⟨j, hj1, hj2⟩
            refine hnot ⟨j + 1, ?_, hj2⟩
            have : prime * 2 * (j + 1) = prime * 2 * j + prime * 2 := by ring
            omega
          rw [ihf t hnot']
          show (if t = k - low then false else sieve t) = sieve t
          have hz : prime * 2 * 0 = 0 := by ring
          rw [if_neg (fun hteq => hnot ⟨0, by omega, by omega⟩)]
        · intro t ht
          obtain ⟨j, hj1, hj2⟩ := ht
          cases j with
          | zero =>
            have hz : prime * 2 * 0 = 0 := by ring
            have hteq : t = k - low := by omega
            have hnot' : ¬ (∃ j : ℕ, low + t = (k + prime * 2) + prime * 2 * j ∧
                low + t < high) := by
              rintro ⟨j', hj1', _⟩
              omega
            rw [ihf t hnot']
            show (if t = k - low then false else sieve t) = false
            rw [if_pos hteq]
          | succ j =>
            refine ihh t ⟨j, ?_, hj2⟩
            have : prime * 2 * (j + 1) = prime * 2 * j + prime * 2 := by ring
            omega
        · intro j hj
          cases j with
          | zero =>
            have hz : prime * 2 * 0 = 0 := by ring
            omega
          | succ j =>
            have he : k + prime * 2 * (j + 1) = (k + prime * 2) + prime * 2 * j := by
              ring
            rw [he]
            exact ihmin j (by omega)
      · rw [if_neg hs]
        obtain ⟨ihf, ihh, ⟨j0, ihj⟩, ihhi, ihmin, ihc⟩ :=
          ih (k + prime * 2) sieve counters (by omega) (by omega) hagree
        refine ⟨?_, ?_, ⟨j0 + 1, by rw [ihj]; ring⟩, ihhi, ?_, ihc⟩
        · intro t hnot
          refine ihf t ?_
          rintro ⟨j, hj1, hj2⟩
          refine hnot ⟨j + 1, ?_, hj2⟩
          have : prime * 2 * (j + 1) = prime * 2 * j + prime * 2 := by ring
          omega
        · intro t ht
          obtain ⟨j, hj1, hj2⟩ := ht
          cases j with
          | zero =>
            have hz : prime * 2 * 0 = 0 := by ring
            have hteq : t = k - low := by omega
            have hnot' : ¬ (∃ j : ℕ, low + t = (k + prime * 2) + prime * 2 * j ∧
                low + t < high) := by
              rintro ⟨j', hj1', _⟩
              omega
            rw [ihf t hnot', hteq]
            exact Bool.eq_false_iff.mpr hs
          | succ j =>
            refine ihh t ⟨j, ?_, hj2⟩
            have : prime * 2 * (j + 1) = prime * 2 * j + prime * 2 := by ring
            omega
        · intro j hj
          cases j with
          | zero =>
            have hz : prime * 2 * 0 = 0 := by ring
            omega
          | succ j =>
            have he : k + prime * 2 * (j + 1) = (k + prime * 2) + prime * 2 * j := by
              ring
            rw [he]
            exact ihmin j (by omega)
    · rw [if_neg hk]
      refine ⟨fun t _ => rfl, fun t ht => ?_, ⟨0, by
        have hz : prime * 2 * 0 = 0 := by ring
        omega⟩, by omega, fun j _ => Nat.le_add_right _ _, hagree⟩
      obtain ⟨j, hj1, hj2⟩ := ht
      omega

/-- The fuel `high / (prime * 2) + 1` always suffices for one crossing. -/
theorem crossing_fuel (prime high next : ℕ) (hp : 1 ≤ prime) :
    high ≤ next + prime * 2 * (high / (prime * 2) + 1) := by
  have hd := Nat.div_add_mod high (prime * 2)
  have hm : high % (prime * 2) < prime * 2 := Nat.mod_lt _ (by omega)
  have hexp : prime * 2 * (high / (prime * 2) + 1) =
      prime * 2 * (high / (prime * 2)) + prime * 2 := by ring
  omega

theorem cross_off_spec (prime low high next : ℕ) (sieve : ℕ → Bool)
    (counters : ℕ → ℕ) (hp1 : 1 ≤ prime) (hlow : low ≤ next)
    (hagree : ∀ i, counters i = prefixCount sieve i) :
    (∀ t, ¬ (∃ j : ℕ, low + t = next + prime * 2 * j ∧ low + t < high) →
      (cross_off prime low high next sieve counters).2.1 t = sieve t) ∧
    (∀ t, (∃ j : ℕ, low + t = next + prime * 2 * j ∧ low + t < high) →
      (cross_off prime low high next sieve counters).2.1 t = false) ∧
    (∃ j : ℕ, (cross_off prime low high next sieve counters).1 =
      next + prime * 2 * j) ∧
    high ≤ (cross_off prime low high next sieve counters).1 ∧
    (∀ j : ℕ, high ≤ next + prime * 2 * j →
      (cross_off prime low high next sieve counters).1 ≤ next + prime * 2 * j) ∧
    (∀ i, (cross_off prime low high next sieve counters).2.2 i =
      prefixCount (cross_off prime low high next sieve counters).2.1 i) :=
  crossOffGo_spec prime low high hp1 (high / (prime * 2) + 1) next
    sieve counters (crossing_fuel prime high next hp1) hlow hagree

/-- C8: `cross_off(prime, low, high, next_multiple, sieve, counters)`, for
every prime not in {2, 3, 5} and every segment with `low ≤ next_multiple`:
starting from the old next_multiple, for each k = next_multiple,
next_multiple + 2·prime, … with k < high it unsets `sieve[k − low]` (if set)
and keeps every other sieve position unchanged, writes back as
next_multiple the first such k ≥ high, and preserves the agreement
invariant `query(i) = popcount(sieve[0..i])`. -/
theorem c8_cross_off (prime low high next : ℕ) (sieve : ℕ → Bool)
    (counters : ℕ → ℕ)
    (hpr : isPrime prime = true) (h2 : prime ≠ 2) (h3 : prime ≠ 3)
    (h5 : prime ≠ 5) (hlow : low ≤ next)
    (hagree : ∀ i, counters i = prefixCount sieve i) :
    (∀ t, ¬ (∃ j : ℕ, low + t = next + prime * 2 * j ∧ low + t < high) →
      (cross_off prime low high next sieve counters).2.1 t = sieve t) ∧
    (∀ t, (∃ j : ℕ, low + t = next + prime * 2 * j ∧ low + t < high) →
      (cross_off prime low high next sieve counters).2.1 t = false) ∧
    (∃ j : ℕ, (cross_off prime low high next sieve counters).1 =
      next + prime * 2 * j) ∧
    high ≤ (cross_off prime low high next sieve counters).1 ∧
    (∀ j : ℕ, high ≤ next + prime * 2 * j →
      (cross_off prime low high next sieve counters).1 ≤ next + prime * 2 * j) ∧
    (∀ i, (cross_off prime low high next sieve counters).2.2 i =
      prefixCount (cross_off prime low high next sieve counters).2.1 i) := by
  have hp1 : 1 ≤ prime := by
    have := (isPrime_iff.mp hpr).two_le
    omega
  exact cross_off_spec prime low high next sieve counters hp1 hlow hagree

/-- Witness for C8 at prime = 7, low = 10, high = 30, next = 21, a 3-bit
sieve with exact counters. -/
theorem c8_cross_off_witness :
    (isPrime 7 = true ∧ (7 : ℕ) ≠ 2 ∧ (7 : ℕ) ≠ 3 ∧ (7 : ℕ) ≠ 5 ∧
      (10 : ℕ) ≤ 21 ∧
      (∀ i, prefixCount (fun t => decide (t < 3)) i =
        prefixCount (fun t => decide (t < 3)) i)) ∧
    ((∀ t, ¬ (∃ j : ℕ, 10 + t = 21 + 7 * 2 * j ∧ 10 + t < 30) →
      (cross_off 7 10 30 21 (fun t => decide (t < 3))
        (prefixCount (fun t => decide (t < 3)))).2.1 t =
        (fun t => decide (t < 3)) t) ∧
    (∀ t, (∃ j : ℕ, 10 + t = 21 + 7 * 2 * j ∧ 10 + t < 30) →
      (cross_off 7 10 30 21 (fun t => decide (t < 3))
        (prefixCount (fun t => decide (t < 3)))).2.1 t = false) ∧
    (∃ j : ℕ, (cross_off 7 10 30 21 (fun t => decide (t < 3))
        (prefixCount (fun t => decide (t < 3)))).1 = 21 + 7 * 2 * j) ∧
    (30 : ℕ) ≤ (cross_off 7 10 30 21 (fun t => decide (t < 3))
        (prefixCount (fun t => decide (t < 3)))).1 ∧
    (∀ j : ℕ, 30 ≤ 21 + 7 * 2 * j →
      (cross_off 7 10 30 21 (fun t => decide (t < 3))
        (prefixCount (fun t => decide (t < 3)))).1 ≤ 21 + 7 * 2 * j) ∧
    (∀ i, (cross_off 7 10 30 21 (fun t => decide (t < 3))
        (prefixCount (fun t => decide (t < 3)))).2.2 i =
      prefixCount ((cross_off 7 10 30 21 (fun t => decide (t < 3))
        (prefixCount (fun t => decide (t < 3)))).2.1) i)) :=
  ⟨⟨by decide, by decide, by decide, by decide, by decide, fun i => rfl⟩,
    c8_cross_off 7 10 30 21 (fun t => decide (t < 3))
      (prefixCount (fun t => decide (t < 3)))
      (by decide) (by decide) (by decide) (by decide) (by decide)
      (fun i => rfl)⟩

/-! ## The `S2_sieve(x, y, z, c, pi, primes, lpf, mu)` segment loop

Embedded state: the segment's `BitSieve` (a Bool-valued function on
positions), the counters (extensionally, as in `cross_off` above), the
`next` array and the `phi` array.  The `mu`/`lpf` inner loops only *read*
this state and accumulate `S2_result`, which claim C6 does not mention, so
`S2_result` is not tracked; but their `goto next_segment` guards — which do
abort the state evolution — are kept exactly (they are pure arithmetic in
x, y, z, low and b).  `pi` and `primes` tables are exact
(`primeCount`/`primeSeq`), as generated by the caller. -/

/-- Modelled from the spec: `BitSieve::fill(low, high)` sets the bit of
position t iff the integer low + t lies in [low, high) and is coprime to
{2, 3, 5} (the first 3 primes); bits outside the window are cleared. -/
def bitSieveFill (low high : ℕ) : ℕ → Bool :=
  fun t => decide (low + t < high) && decide (coprimeFirst 3 (low + t))

/-- The pre-crossing loop `for (prime = primes[b]; k < high; k += prime*2)
sieve.unset(k - low)` run for one b (no counter updates), with fuel. -/
def precrossGo (prime low high : ℕ) :
    ℕ → ℕ → (ℕ → Bool) → ℕ × (ℕ → Bool)
  | 0, k, sieve => (k, sieve)
  | fuel + 1, k, sieve =>
    if k < high then
      precrossGo prime low high fuel (k + prime * 2)
        (fun t => if t = k - low then false else sieve t)
    else (k, sieve)

/-- The `for (; b <= c; b++)` pre-crossing over primes 2..c, updating
`next`. -/
def segPrecrossGo (low high : ℕ) :
    ℕ → ℕ → (ℕ → Bool) → (ℕ → ℕ) → (ℕ → Bool) × (ℕ → ℕ)
  | 0, _, sieve, next => (sieve, next)
  | fuel + 1, b, sieve, next =>
    let r := precrossGo (primeSeq b) low high
      (high / (primeSeq b * 2) + 1) (next b) sieve
    segPrecrossGo low high fuel (b + 1) r.2
      (fun j => if j = b then r.1 else next j)

/-- The `goto next_segment` guard at the head of iteration b: for
b ≤ π(√y) it is `prime >= max_m` with `max_m = min(x / (prime*low), y)`;
beyond that it is `prime >= primes[l]` with
`l = pi[min3(x / (prime*low), z / prime, y)]`. -/
def segStop (x y z piSqrty low b : ℕ) : Bool :=
  if b ≤ piSqrty then
    decide (min (x / (primeSeq b * low)) y ≤ primeSeq b)
  else
    decide (primeSeq (primeCount
      (min (x / (primeSeq b * low)) (min (z / primeSeq b) y))) ≤ primeSeq b)

/-- The mutable state of `S2_sieve` (minus `S2_result`, see above). -/
structure SieveState where
  sieve : ℕ → Bool
  counters : ℕ → ℕ
  next : ℕ → ℕ
  phi : ℕ → ℕ

/-- The two special-leaf loops of one segment, unified: iterate b while
b ≤ max(π(√y), π(√z)); on `goto next_segment` stop; otherwise
`phi[b] += cnt_query(counters, (high-1)-low)` then
`cross_off(primes[b], low, high, next[b], sieve, counters)`. -/
def segMainGo (x y z piSqrty low high : ℕ) :
    ℕ → ℕ → SieveState → SieveState
  | 0, _, st => st
  | fuel + 1, b, st =>
    if segStop x y z piSqrty low b then st
    else
      let q := st.counters ((high - 1) - low)
      let r := cross_off (primeSeq b) low high (st.next b) st.sieve st.counters
      segMainGo x y z piSqrty low high fuel (b + 1)
        { sieve := r.2.1
          counters := r.2.2
          next := fun j => if j = b then r.1 else st.next j
          phi := fun j => if j = b then st.phi j + q else st.phi j }

/-- One iteration of the segment loop: fill, pre-cross primes 2..c,
`cnt_finit`, then the two special-leaf loops. -/
def processSegment (x y z c piSqrty piSqrtz limit segSize low : ℕ)
    (st : SieveState) : SieveState :=
  let high := min (low + segSize) limit
  let pr := segPrecrossGo low high (c - 1) 2 (bitSieveFill low high) st.next
  segMainGo x y z piSqrty low high (max piSqrty piSqrtz - c) (c + 1)
    { sieve := pr.1
      counters := prefixCount pr.1
      next := pr.2
      phi := st.phi }

/-- The first nseg iterations of the `for (low = 1; low < limit;
low += segment_size)` loop, from the initial state (`next` a copy of
`primes`, `phi` all zero). -/
def runSegs (x y z c piSqrty piSqrtz limit segSize : ℕ) : ℕ → SieveState
  | 0 => ⟨fun _ => false, fun _ => 0, primeSeq, fun _ => 0⟩
  | s + 1 =>
    let st := runSegs x y z c piSqrty piSqrtz limit segSize s
    if 1 + s * segSize < limit then
      processSegment x y z c piSqrty piSqrtz limit segSize (1 + s * segSize) st
    else st

/-- Halving recursion behind `nextPow2`. -/
def nextPow2Go : ℕ → ℕ → ℕ
  | 0, _ => 1
  | fuel + 1, n => if n ≤ 1 then 1 else 2 * nextPow2Go fuel ((n + 1) / 2)

/-- Modelled from the spec: `next_power_of_2(n)` is the least power of two
that is ≥ n. -/
def nextPow2 (n : ℕ) : ℕ := nextPow2Go n n

/-- The state of `S2_sieve(x, y, z, c, pi, primes, lpf, mu)` after its
first nseg segments, with `limit = z + 1`,
`segment_size = next_power_of_2(isqrt(limit))`, `pi_sqrty = pi[isqrt(y)]`
and `pi_sqrtz = pi[min(isqrt(z), y)]` as in the source. -/
def S2_sieveRun (x y z c nseg : ℕ) : SieveState :=
  runSegs x y z c (primeCount (isqrt y)) (primeCount (min (isqrt z) y))
    (z + 1) (nextPow2 (isqrt (z + 1))) nseg

theorem primeSeq_odd {j : ℕ} (hj : 2 ≤ j) : primeSeq j % 2 = 1 := by
  have hp := isPrime_iff.mp (primeSeq_prime (show 1 ≤ j by omega))
  have h3 : 3 ≤ primeSeq j := by
    have h2 := primeSeq_strictMono.monotone hj
    have he : primeSeq 2 = 3 := by decide
    omega
  rcases Nat.even_or_odd (primeSeq j) with he | ho
  · obtain ⟨t, ht⟩ := he
    have h2d : (2 : ℕ) ∣ primeSeq j := ⟨t, by omega⟩
    rcases hp.eq_one_or_self_of_dvd 2 h2d with h | h <;> omega
  · obtain ⟨t, ht⟩ := ho
    omega

/-- `next` points at the first odd multiple of p that is ≥ low:
it lies in the residue class p mod 2p, is ≥ low, and is < low + 2p. -/
def isNextInv (p low nxt : ℕ) : Prop :=
  nxt % (p * 2) = p ∧ low ≤ nxt ∧ nxt < low + p * 2

theorem mod_imp_dvd {p v : ℕ} (hm : v % (p * 2) = p) : p ∣ v := by
  have hd := Nat.div_add_mod v (p * 2)
  refine ⟨2 * (v / (p * 2)) + 1, ?_⟩
  have hexp : p * (2 * (v / (p * 2)) + 1) = p * 2 * (v / (p * 2)) + p := by ring
  omega

theorem odd_mult_iff_mod {p v : ℕ} (hp : 1 ≤ p) (hpo : p % 2 = 1)
    (hvo : ¬ 2 ∣ v) : p ∣ v ↔ v % (p * 2) = p := by
  constructor
  · rintro ⟨w, rfl⟩
    rcases Nat.even_or_odd w with he | ho
    · obtain ⟨t, ht⟩ := he
      exact absurd ⟨p * t, by rw [ht]; ring⟩ hvo
    · obtain ⟨t, ht⟩ := ho
      subst ht
      have hv : p * (2 * t + 1) = p * 2 * t + p := by ring
      rw [hv, Nat.mul_add_mod]
      exact Nat.mod_eq_of_lt (by omega)
  · exact mod_imp_dvd

theorem prog_mem_iff {p low nxt v : ℕ} (hp : 1 ≤ p)
    (hinv : isNextInv p low nxt) (hv : low ≤ v) :
    (∃ i, v = nxt + p * 2 * i) ↔ v % (p * 2) = p := by
  obtain ⟨hmod, hge, hlt⟩ := hinv
  constructor
  · rintro ⟨i, rfl⟩
    rw [Nat.add_mul_mod_self_left]
    exact hmod
  · intro hm
    have hdv := Nat.div_add_mod v (p * 2)
    have hdn := Nat.div_add_mod nxt (p * 2)
    have hab : nxt / (p * 2) ≤ v / (p * 2) := by
      by_contra hc
      push_neg at hc
      have h1 : p * 2 * (v / (p * 2) + 1) ≤ p * 2 * (nxt / (p * 2)) :=
        Nat.mul_le_mul_left _ (by omega)
      have h2 : p * 2 * (v / (p * 2) + 1) =
          p * 2 * (v / (p * 2)) + p * 2 := by ring
      omega
    refine ⟨v / (p * 2) - nxt / (p * 2), ?_⟩
    have hd2 : v / (p * 2) =
        nxt / (p * 2) + (v / (p * 2) - nxt / (p * 2)) := by omega
    have hexp : p * 2 * (nxt / (p * 2) + (v / (p * 2) - nxt / (p * 2))) =
        p * 2 * (nxt / (p * 2)) +
          p * 2 * (v / (p * 2) - nxt / (p * 2)) := by ring
    have hMa : p * 2 * (v / (p * 2)) =
        p * 2 * (nxt / (p * 2)) +
          p * 2 * (v / (p * 2) - nxt / (p * 2)) := by
      conv_lhs => rw [hd2]
      exact hexp
    omega

/-- The write-back of a crossing (a progression point ≥ high that is minimal)
is either the unchanged `next` or lies below high + 2p. -/
theorem first_ge_bound {M nxt high r : ℕ} (hM : 1 ≤ M)
    (hex : ∃ j, r = nxt + M * j)
    (hmin : ∀ j, high ≤ nxt + M * j → r ≤ nxt + M * j) :
    r = nxt ∨ r < high + M := by
  obtain ⟨j0, hj0⟩ := hex
  cases j0 with
  | zero =>
    left
    have hz : M * 0 = 0 := by ring
    omega
  | succ i =>
    right
    by_cases he : high ≤ nxt + M * i
    · have hmin' := hmin i he
      have hexp : M * (i + 1) = M * i + M := by ring
      omega
    · have hexp : M * (i + 1) = M * i + M := by ring
      omega

/-- Crossing prime index j off a sieve already free of the first
max(3, j−1) primes leaves the survivors of the first max(3, j) primes
(for j ≤ 3 the wheel already removed prime j). -/
theorem coprimeFirst_max3 {j v : ℕ} (hj : 2 ≤ j) :
    coprimeFirst (max 3 j) v ↔
      coprimeFirst (max 3 (j - 1)) v ∧ ¬ primeSeq j ∣ v := by
  by_cases h4 : 4 ≤ j
  · rw [show max 3 j = j by omega, show max 3 (j - 1) = j - 1 by omega]
    have hs := @coprimeFirst_succ (j - 1) v
    rw [show j - 1 + 1 = j by omega] at hs
    exact hs
  · rw [show max 3 j = 3 by omega, show max 3 (j - 1) = 3 by omega]
    constructor
    · intro h
      exact ⟨h, h j (by omega) (by omega)⟩
    · exact fun h => h.1

/-- The pointwise effect of one crossing (progression points cleared,
everything else unchanged) turns the survivors of the first max(3, j−1)
primes into the survivors of the first max(3, j) primes. -/
theorem crossing_char {j low high nxt : ℕ} {sieve sieve' : ℕ → Bool}
    (hj : 2 ≤ j)
    (hchar : ∀ t, sieve t = true ↔
      (low + t < high ∧ coprimeFirst (max 3 (j - 1)) (low + t)))
    (hinv : isNextInv (primeSeq j) low nxt)
    (hfr : ∀ t, ¬ (∃ i : ℕ, low + t = nxt + primeSeq j * 2 * i ∧ low + t < high) →
      sieve' t = sieve t)
    (hhit : ∀ t, (∃ i : ℕ, low + t = nxt + primeSeq j * 2 * i ∧ low + t < high) →
      sieve' t = false) :
    ∀ t, sieve' t = true ↔
      (low + t < high ∧ coprimeFirst (max 3 j) (low + t)) := by
  have hp2 : 2 ≤ primeSeq j := primeSeq_two_le (by omega)
  have hpo : primeSeq j % 2 = 1 := primeSeq_odd hj
  intro t
  by_cases hwin : low + t < high
  · by_cases hcop : coprimeFirst (max 3 (j - 1)) (low + t)
    · have hv2 : ¬ (2 : ℕ) ∣ (low + t) := by
        have hh := hcop 1 (by omega) (by omega)
        rwa [show primeSeq 1 = 2 from by decide] at hh
      by_cases hdvd : primeSeq j ∣ (low + t)
      · have hm : (low + t) % (primeSeq j * 2) = primeSeq j :=
          (odd_mult_iff_mod (by omega) hpo hv2).mp hdvd
        obtain ⟨i, hi⟩ := (prog_mem_iff (by omega) hinv
          (Nat.le_add_right low t)).mpr hm
        rw [hhit t ⟨i, hi, hwin⟩]
        simp only [Bool.false_eq_true, false_iff]
        rintro ⟨_, hc⟩
        exact ((coprimeFirst_max3 hj).mp hc).2 hdvd
      · have hnot : ¬ (∃ i : ℕ, low + t = nxt + primeSeq j * 2 * i ∧
            low + t < high) := by
          rintro ⟨i, hi, _⟩
          exact hdvd (mod_imp_dvd ((prog_mem_iff (by omega) hinv
            (Nat.le_add_right low t)).mp ⟨i, hi⟩))
        rw [hfr t hnot, hchar t]
        constructor
        · rintro ⟨hw, hc⟩
          exact ⟨hw, (coprimeFirst_max3 hj).mpr ⟨hc, hdvd⟩⟩
        · rintro ⟨hw, hc⟩
          exact ⟨hw, ((coprimeFirst_max3 hj).mp hc).1⟩
    · have hres : sieve' t = false := by
        by_cases hh : ∃ i : ℕ, low + t = nxt + primeSeq j * 2 * i ∧
            low + t < high
        · exact hhit t hh
        · rw [hfr t hh]
          exact Bool.eq_false_iff.mpr
            (fun hc => hcop ((hchar t).mp hc).2)
      rw [hres]
      simp only [Bool.false_eq_true, false_iff]
      rintro ⟨_, hc⟩
      exact hcop ((coprimeFirst_max3 hj).mp hc).1
  · have hnot : ¬ (∃ i : ℕ, low + t = nxt + primeSeq j * 2 * i ∧
        low + t < high) := by
      rintro ⟨_, _, hcc⟩
      exact hwin hcc
    rw [hfr t hnot]
    rw [hchar t]
    constructor
    · rintro ⟨hw, _⟩
      exact absurd hw hwin
    · rintro ⟨hw, _⟩
      exact absurd hw hwin

theorem precrossGo_spec (prime low high : ℕ) (hp : 1 ≤ prime) :
    ∀ fuel k (sieve : ℕ → Bool),
      high ≤ k + prime * 2 * fuel → low ≤ k →
      ((∀ t, ¬ (∃ j : ℕ, low + t = k + prime * 2 * j ∧ low + t < high) →
        (precrossGo prime low high fuel k sieve).2 t = sieve t) ∧
      (∀ t, (∃ j : ℕ, low + t = k + prime * 2 * j ∧ low + t < high) →
        (precrossGo prime low high fuel k sieve).2 t = false) ∧
      (∃ j : ℕ, (precrossGo prime low high fuel k sieve).1 =
        k + prime * 2 * j) ∧
      high ≤ (precrossGo prime low high fuel k sieve).1 ∧
      (∀ j : ℕ, high ≤ k + prime * 2 * j →
        (precrossGo prime low high fuel k sieve).1 ≤ k + prime * 2 * j)) := by
  intro fuel
  induction fuel with
  | zero =>
    intro k sieve hfuel hlow
    have hz : prime * 2 * 0 = 0 := by ring
    have hhk : high ≤ k := by omega
    refine ⟨fun t _ => rfl, fun t ht => ?_,
      ⟨0, show k = k + prime * 2 * 0 by omega⟩, hhk,
      fun j _ => Nat.le_add_right _ _⟩
    obtain ⟨j, hj1, hj2⟩ := ht
    omega
  | succ fuel ih =>
    intro k sieve hfuel hlow
    rw [precrossGo]
    have hstep : prime * 2 * (fuel + 1) = prime * 2 * fuel + prime * 2 := by
      ring
    by_cases hk : k < high
    · rw [if_pos hk]
      obtain ⟨ihf, ihh, ⟨j0, ihj⟩, ihhi, ihmin⟩ :=
        ih (k + prime * 2) _ (by omega) (by omega)
      refine ⟨?_, ?_, ⟨j0 + 1, by rw [ihj]; ring⟩, ihhi, ?_⟩
      · intro t hnot
        have hnot' : ¬ (∃ j : ℕ, low + t = (k + prime * 2) + prime * 2 * j ∧
            low + t < high) := by
          rintro ⟨j, hj1, hj2⟩
          refine hnot ⟨j + 1, ?_, hj2⟩
          have : prime * 2 * (j + 1) = prime * 2 * j + prime * 2 := by ring
          omega
        rw [ihf t hnot']
        show (if t = k - low then false else sieve t) = sieve t
        have hz : prime * 2 * 0 = 0 := by ring
        rw [if_neg (fun hteq => hnot ⟨0, by omega, by omega⟩)]
      · intro t ht
        obtain ⟨j, hj1, hj2⟩ := ht
        cases j with
        | zero =>
          have hz : prime * 2 * 0 = 0 := by ring
          have hteq : t = k - low := by omega
          have hnot' : ¬ (∃ j : ℕ, low + t = (k + prime * 2) + prime * 2 * j ∧
              low + t < high) := by
            rintro ⟨j', hj1', _⟩
            omega
          rw [ihf t hnot']
          show (if t = k - low then false else sieve t) = false
          rw [if_pos hteq]
        | succ j =>
          refine ihh t ⟨j, ?_, hj2⟩
          have : prime * 2 * (j + 1) = prime * 2 * j + prime * 2 := by ring
          omega
      · intro j hj
        cases j with
        | zero =>
          have hz : prime * 2 * 0 = 0 := by ring
          omega
        | succ j =>
          have he : k + prime * 2 * (j + 1) = (k + prime * 2) + prime * 2 * j := by
            ring
          rw [he]
          exact ihmin j (by omega)
    · rw [if_neg hk]
      refine ⟨fun t _ => rfl, fun t ht => ?_,
        ⟨0, show k = k + prime * 2 * 0 by
          have hz : prime * 2 * 0 = 0 := by ring
          omega⟩, by omega, fun j _ => Nat.le_add_right _ _⟩
      obtain ⟨j, hj1, hj2⟩ := ht
      omega

/-- `BitSieve::fill` gives exactly the wheel survivors of the window. -/
theorem bitSieveFill_char (low high : ℕ) :
    ∀ t, bitSieveFill low high t = true ↔
      (low + t < high ∧ coprimeFirst 3 (low + t)) := by
  intro t
  rw [bitSieveFill, Bool.and_eq_true, decide_eq_true_eq, decide_eq_true_eq]

/-- One `cross_off` of prime index j: survivors drop from level
max(3, j−1) to level max(3, j), the write-back is the first odd multiple
≥ high, and the counters still agree. -/
theorem cross_off_step {j low high : ℕ} (hj : 2 ≤ j) (hlh : low ≤ high)
    {sieve : ℕ → Bool} {counters : ℕ → ℕ} {nxt : ℕ}
    (hchar : ∀ t, sieve t = true ↔
      (low + t < high ∧ coprimeFirst (max 3 (j - 1)) (low + t)))
    (hinv : isNextInv (primeSeq j) low nxt)
    (hagr : ∀ i, counters i = prefixCount sieve i) :
    (∀ t, (cross_off (primeSeq j) low high nxt sieve counters).2.1 t = true ↔
      (low + t < high ∧ coprimeFirst (max 3 j) (low + t))) ∧
    isNextInv (primeSeq j) high
      (cross_off (primeSeq j) low high nxt sieve counters).1 ∧
    (∀ i, (cross_off (primeSeq j) low high nxt sieve counters).2.2 i =
      prefixCount (cross_off (primeSeq j) low high nxt sieve counters).2.1 i) := by
  have hp2 : 2 ≤ primeSeq j := primeSeq_two_le (by omega)
  obtain ⟨hmod, hge, hlt⟩ := hinv
  obtain ⟨hfr, hhit, hex, hhi, hmin, hagr'⟩ :=
    cross_off_spec (primeSeq j) low high nxt sieve counters (by omega) hge hagr
  refine ⟨crossing_char hj hchar ⟨hmod, hge, hlt⟩ hfr hhit, ?_, hagr'⟩
  obtain ⟨j0, hj0⟩ := hex
  refine ⟨?_, hhi, ?_⟩
  · rw [hj0, Nat.add_mul_mod_self_left]
    exact hmod
  · rcases first_ge_bound (show 1 ≤ primeSeq j * 2 by omega) ⟨j0, hj0⟩ hmin
      with h | h
    · omega
    · exact h

/-- One pre-crossing of prime index j (no counters): same sieve effect and
write-back as `cross_off`. -/
theorem precross_step {j low high : ℕ} (hj : 2 ≤ j) (hlh : low ≤ high)
    {sieve : ℕ → Bool} {nxt : ℕ}
    (hchar : ∀ t, sieve t = true ↔
      (low + t < high ∧ coprimeFirst (max 3 (j - 1)) (low + t)))
    (hinv : isNextInv (primeSeq j) low nxt) :
    (∀ t, (precrossGo (primeSeq j) low high
        (high / (primeSeq j * 2) + 1) nxt sieve).2 t = true ↔
      (low + t < high ∧ coprimeFirst (max 3 j) (low + t))) ∧
    isNextInv (primeSeq j) high
      (precrossGo (primeSeq j) low high
        (high / (primeSeq j * 2) + 1) nxt sieve).1 := by
  have hp2 : 2 ≤ primeSeq j := primeSeq_two_le (by omega)
  obtain ⟨hmod, hge, hlt⟩ := hinv
  obtain ⟨hfr, hhit, hex, hhi, hmin⟩ :=
    precrossGo_spec (primeSeq j) low high (by omega)
      (high / (primeSeq j * 2) + 1) nxt sieve
      (crossing_fuel (primeSeq j) high nxt (by omega)) hge
  refine ⟨crossing_char hj hchar ⟨hmod, hge, hlt⟩ hfr hhit, ?_⟩
  obtain ⟨j0, hj0⟩ := hex
  refine ⟨?_, hhi, ?_⟩
  · rw [hj0, Nat.add_mul_mod_self_left]
    exact hmod
  · rcases first_ge_bound (show 1 ≤ primeSeq j * 2 by omega) ⟨j0, hj0⟩ hmin
      with h | h
    · omega
    · exact h

/-- Reading the counters at the last window position counts exactly the
level-a survivors of the whole window [low, high). -/
theorem prefixCount_char {low high a : ℕ} {sieve : ℕ → Bool}
    (hlh : low < high)
    (hchar : ∀ t, sieve t = true ↔
      (low + t < high ∧ coprimeFirst a (low + t))) :
    prefixCount sieve ((high - 1) - low) =
      ((Finset.Ico low high).filter (fun v => coprimeFirst a v)).card := by
  rw [prefixCount, show (high - 1) - low + 1 = high - low by omega,
    countP_range_eq_card]
  refine Finset.card_nbij (fun t => low + t) ?_ ?_ ?_
  · intro t ht
    simp only [Finset.mem_filter, Finset.mem_range, Finset.mem_Ico] at ht ⊢
    obtain ⟨ht1, ht2⟩ := ht
    have hh := (hchar t).mp ht2
    exact ⟨⟨Nat.le_add_right _ _, hh.1⟩, hh.2⟩
  · intro t1 h1 t2 h2 heq
    have heq' : low + t1 = low + t2 := heq
    omega
  · intro v hv
    simp only [Finset.coe_filter, Set.mem_setOf_eq, Finset.mem_Ico] at hv
    obtain ⟨⟨hv1, hv2⟩, hcop⟩ := hv
    refine ⟨v - low, ?_, by show low + (v - low) = v; omega⟩
    simp only [Finset.mem_coe, Finset.mem_filter, Finset.mem_range]
    refine ⟨by omega, ?_⟩
    rw [hchar (v - low), show low + (v - low) = v by omega]
    exact ⟨hv2, hcop⟩

/-- Splitting [1, low+len−1] at low: the window's survivor count extends the
prefix count. -/
theorem windowCard_legendre {low len a : ℕ} (hlow : 1 ≤ low) :
    legendrePhi (low - 1) a +
      ((Finset.Ico low (low + len)).filter (fun v => coprimeFirst a v)).card =
      legendrePhi (low + len - 1) a := by
  rw [legendrePhi, legendrePhi]
  have hset : Finset.Icc 1 (low + len - 1) =
      Finset.Icc 1 (low - 1) ∪ Finset.Ico low (low + len) := by
    ext v
    simp only [Finset.mem_Icc, Finset.mem_Ico, Finset.mem_union]
    omega
  rw [hset, Finset.filter_union, Finset.card_union_of_disjoint]
  exact Finset.disjoint_filter_filter (Finset.disjoint_left.mpr
    (fun v hv1 hv2 => by
      simp only [Finset.mem_Icc] at hv1
      simp only [Finset.mem_Ico] at hv2
      omega))

theorem segPrecrossGo_spec (low high : ℕ) (hlh : low ≤ high) :
    ∀ fuel b₀ (sieve : ℕ → Bool) (next : ℕ → ℕ),
      2 ≤ b₀ →
      (∀ t, sieve t = true ↔
        (low + t < high ∧ coprimeFirst (max 3 (b₀ - 1)) (low + t))) →
      (∀ j, b₀ ≤ j → j < b₀ + fuel → isNextInv (primeSeq j) low (next j)) →
      ((∀ t, (segPrecrossGo low high fuel b₀ sieve next).1 t = true ↔
        (low + t < high ∧ coprimeFirst (max 3 (b₀ + fuel - 1)) (low + t))) ∧
      (∀ j, b₀ ≤ j → j < b₀ + fuel →
        isNextInv (primeSeq j) high
          ((segPrecrossGo low high fuel b₀ sieve next).2 j)) ∧
      (∀ j, j < b₀ ∨ b₀ + fuel ≤ j →
        (segPrecrossGo low high fuel b₀ sieve next).2 j = next j)) := by
  intro fuel
  induction fuel with
  | zero =>
    intro b₀ sieve next hb₀ hchar hnext
    exact ⟨hchar, fun j h1 h2 => by omega, fun j _ => rfl⟩
  | succ fuel ih =>
    intro b₀ sieve next hb₀ hchar hnext
    have hinv₀ := hnext b₀ (le_refl _) (by omega)
    obtain ⟨hchar', hinv'⟩ := precross_step hb₀ hlh hchar hinv₀
    have hunfold : segPrecrossGo low high (fuel + 1) b₀ sieve next =
        segPrecrossGo low high fuel (b₀ + 1)
          (precrossGo (primeSeq b₀) low high
            (high / (primeSeq b₀ * 2) + 1) (next b₀) sieve).2
          (fun j => if j = b₀ then
            (precrossGo (primeSeq b₀) low high
              (high / (primeSeq b₀ * 2) + 1) (next b₀) sieve).1
            else next j) := rfl
    rw [hunfold]
    have hchar'' : ∀ t, (precrossGo (primeSeq b₀) low high
        (high / (primeSeq b₀ * 2) + 1) (next b₀) sieve).2 t = true ↔
        (low + t < high ∧ coprimeFirst (max 3 (b₀ + 1 - 1)) (low + t)) := by
      rw [show b₀ + 1 - 1 = b₀ from rfl]
      exact hchar'
    have hnext'' : ∀ j, b₀ + 1 ≤ j → j < (b₀ + 1) + fuel →
        isNextInv (primeSeq j) low
          (if j = b₀ then
            (precrossGo (primeSeq b₀) low high
              (high / (primeSeq b₀ * 2) + 1) (next b₀) sieve).1
            else next j) := by
      intro j h1 h2
      rw [if_neg (show ¬ j = b₀ by omega)]
      exact hnext j (by omega) (by omega)
    obtain ⟨ih1, ih2, ih3⟩ := ih (b₀ + 1) _ _ (by omega) hchar'' hnext''
    refine ⟨?_, ?_, ?_⟩
    · rw [show b₀ + (fuel + 1) - 1 = (b₀ + 1) + fuel - 1 by omega]
      exact ih1
    · intro j h1 h2
      by_cases hjb : j = b₀
      · subst hjb
        rw [ih3 j (Or.inl (by omega))]
        show isNextInv (primeSeq j) high
          (if j = j then
            (precrossGo (primeSeq j) low high
              (high / (primeSeq j * 2) + 1) (next j) sieve).1
            else next j)
        rw [if_pos rfl]
        exact hinv'
      · exact ih2 j (by omega) (by omega)
    · intro j hj
      have hjb : ¬ j = b₀ := by omega
      have hfr := ih3 j (by omega)
      rw [hfr]
      show (if j = b₀ then
          (precrossGo (primeSeq b₀) low high
            (high / (primeSeq b₀ * 2) + 1) (next b₀) sieve).1
          else next j) = next j
      rw [if_neg hjb]

theorem segMainGo_frame (x y z piSqrty low high : ℕ) :
    ∀ fuel b₀ (st : SieveState) i, i < b₀ →
      (segMainGo x y z piSqrty low high fuel b₀ st).phi i = st.phi i ∧
      (segMainGo x y z piSqrty low high fuel b₀ st).next i = st.next i := by
  intro fuel
  induction fuel with
  | zero => exact fun b₀ st i hi => ⟨rfl, rfl⟩
  | succ fuel ih =>
    intro b₀ st i hi
    by_cases hs : segStop x y z piSqrty low b₀ = true
    · rw [segMainGo, if_pos hs]
      exact ⟨rfl, rfl⟩
    · have hunfold : segMainGo x y z piSqrty low high (fuel + 1) b₀ st =
          segMainGo x y z piSqrty low high fuel (b₀ + 1)
            { sieve := (cross_off (primeSeq b₀) low high (st.next b₀)
                st.sieve st.counters).2.1
              counters := (cross_off (primeSeq b₀) low high (st.next b₀)
                st.sieve st.counters).2.2
              next := fun j => if j = b₀ then
                (cross_off (primeSeq b₀) low high (st.next b₀)
                  st.sieve st.counters).1
                else st.next j
              phi := fun j => if j = b₀ then
                st.phi j + st.counters ((high - 1) - low)
                else st.phi j } := by
        rw [segMainGo, if_neg hs]
      rw [hunfold]
      obtain ⟨h1, h2⟩ := ih (b₀ + 1) _ i (by omega)
      constructor
      · rw [h1]
        show (if i = b₀ then st.phi i + st.counters ((high - 1) - low)
          else st.phi i) = st.phi i
        rw [if_neg (show ¬ i = b₀ by omega)]
      · rw [h2]
        show (if i = b₀ then
            (cross_off (primeSeq b₀) low high (st.next b₀)
              st.sieve st.counters).1
            else st.next i) = st.next i
        rw [if_neg (show ¬ i = b₀ by omega)]

theorem segMainGo_spec (x y z piSqrty low high : ℕ) (hlh : low < high)
    (τ : ℕ) :
    ∀ fuel b₀ (st : SieveState),
      4 ≤ b₀ → b₀ ≤ τ → τ < b₀ + fuel →
      (∀ b', b₀ ≤ b' → b' ≤ τ → segStop x y z piSqrty low b' = false) →
      (∀ t, st.sieve t = true ↔
        (low + t < high ∧ coprimeFirst (b₀ - 1) (low + t))) →
      (∀ i, st.counters i = prefixCount st.sieve i) →
      (∀ j, b₀ ≤ j → j ≤ τ → isNextInv (primeSeq j) low (st.next j)) →
      ((segMainGo x y z piSqrty low high fuel b₀ st).phi τ =
        st.phi τ +
          ((Finset.Ico low high).filter
            (fun v => coprimeFirst (τ - 1) v)).card ∧
      (∀ j, b₀ ≤ j → j ≤ τ →
        isNextInv (primeSeq j) high
          ((segMainGo x y z piSqrty low high fuel b₀ st).next j))) := by
  intro fuel
  induction fuel with
  | zero => intro b₀ st h4 hbτ hτf; omega
  | succ fuel ih =>
    intro b₀ st h4 hbτ hτf hns hchar hagr hnext
    have hstop := hns b₀ (le_refl _) hbτ
    have hstop' : ¬ segStop x y z piSqrty low b₀ = true := by
      rw [hstop]
      exact Bool.false_ne_true
    have hunfold : segMainGo x y z piSqrty low high (fuel + 1) b₀ st =
        segMainGo x y z piSqrty low high fuel (b₀ + 1)
          { sieve := (cross_off (primeSeq b₀) low high (st.next b₀)
              st.sieve st.counters).2.1
            counters := (cross_off (primeSeq b₀) low high (st.next b₀)
              st.sieve st.counters).2.2
            next := fun j => if j = b₀ then
              (cross_off (primeSeq b₀) low high (st.next b₀)
                st.sieve st.counters).1
              else st.next j
            phi := fun j => if j = b₀ then
              st.phi j + st.counters ((high - 1) - low)
              else st.phi j } := by
      rw [segMainGo, if_neg hstop']
    rw [hunfold]
    have hchar3 : ∀ t, st.sieve t = true ↔
        (low + t < high ∧ coprimeFirst (max 3 (b₀ - 1)) (low + t)) := by
      rw [show max 3 (b₀ - 1) = b₀ - 1 by omega]
      exact hchar
    have hinvb := hnext b₀ (le_refl _) hbτ
    obtain ⟨hcharN, hinvN, hagrN⟩ :=
      cross_off_step (show 2 ≤ b₀ by omega) (le_of_lt hlh) hchar3 hinvb hagr
    have hcharN' : ∀ t, (cross_off (primeSeq b₀) low high (st.next b₀)
        st.sieve st.counters).2.1 t = true ↔
        (low + t < high ∧ coprimeFirst (b₀ + 1 - 1) (low + t)) := by
      rw [show max 3 b₀ = b₀ by omega] at hcharN
      exact hcharN
    by_cases hcase : b₀ = τ
    · -- this is the iteration that increments phi[τ]
      subst hcase
      have hq : st.counters ((high - 1) - low) =
          ((Finset.Ico low high).filter
            (fun v => coprimeFirst (b₀ - 1) v)).card := by
        rw [hagr ((high - 1) - low), prefixCount_char hlh hchar]
      obtain ⟨hf1, hf2⟩ := segMainGo_frame x y z piSqrty low high fuel
        (b₀ + 1)
        { sieve := (cross_off (primeSeq b₀) low high (st.next b₀)
            st.sieve st.counters).2.1
          counters := (cross_off (primeSeq b₀) low high (st.next b₀)
            st.sieve st.counters).2.2
          next := fun j => if j = b₀ then
            (cross_off (primeSeq b₀) low high (st.next b₀)
              st.sieve st.counters).1
            else st.next j
          phi := fun j => if j = b₀ then
            st.phi j + st.counters ((high - 1) - low)
            else st.phi j } b₀ (by omega)
      refine ⟨?_, ?_⟩
      · rw [hf1]
        show (if b₀ = b₀ then st.phi b₀ + st.counters ((high - 1) - low)
          else st.phi b₀) =
          st.phi b₀ + ((Finset.Ico low high).filter
            (fun v => coprimeFirst (b₀ - 1) v)).card
        rw [if_pos rfl, hq]
      · intro j h1 h2
        have hj : j = b₀ := by omega
        subst hj
        rw [hf2]
        show isNextInv (primeSeq j) high
          (if j = j then
            (cross_off (primeSeq j) low high (st.next j)
              st.sieve st.counters).1
            else st.next j)
        rw [if_pos rfl]
        exact hinvN
    · -- b₀ < τ: pass through and recurse
      have hblt : b₀ < τ := by omega
      have hnextN : ∀ j, b₀ + 1 ≤ j → j ≤ τ →
          isNextInv (primeSeq j) low
            (if j = b₀ then
              (cross_off (primeSeq b₀) low high (st.next b₀)
                st.sieve st.counters).1
              else st.next j) := by
        intro j h1 h2
        rw [if_neg (show ¬ j = b₀ by omega)]
        exact hnext j (by omega) h2
      obtain ⟨ih1, ih2⟩ := ih (b₀ + 1)
        { sieve := (cross_off (primeSeq b₀) low high (st.next b₀)
            st.sieve st.counters).2.1
          counters := (cross_off (primeSeq b₀) low high (st.next b₀)
            st.sieve st.counters).2.2
          next := fun j => if j = b₀ then
            (cross_off (primeSeq b₀) low high (st.next b₀)
              st.sieve st.counters).1
            else st.next j
          phi := fun j => if j = b₀ then
            st.phi j + st.counters ((high - 1) - low)
            else st.phi j }
        (by omega) (by omega) (by omega)
        (fun b' h1 h2 => hns b' (by omega) h2) hcharN' hagrN hnextN
      refine ⟨?_, ?_⟩
      · rw [ih1]
        show (if τ = b₀ then st.phi τ + st.counters ((high - 1) - low)
          else st.phi τ) +
          ((Finset.Ico low high).filter
            (fun v => coprimeFirst (τ - 1) v)).card =
          st.phi τ + ((Finset.Ico low high).filter
            (fun v => coprimeFirst (τ - 1) v)).card
        rw [if_neg (show ¬ τ = b₀ by omega)]
      · intro j h1 h2
        by_cases hjb : j = b₀
        · obtain ⟨_, hf2⟩ := segMainGo_frame x y z piSqrty low high fuel
            (b₀ + 1)
            { sieve := (cross_off (primeSeq b₀) low high (st.next b₀)
                st.sieve st.counters).2.1
              counters := (cross_off (primeSeq b₀) low high (st.next b₀)
                st.sieve st.counters).2.2
              next := fun j => if j = b₀ then
                (cross_off (primeSeq b₀) low high (st.next b₀)
                  st.sieve st.counters).1
                else st.next j
              phi := fun j => if j = b₀ then
                st.phi j + st.counters ((high - 1) - low)
                else st.phi j } j (by omega)
          rw [hf2, hjb]
          show isNextInv (primeSeq b₀) high
            (if b₀ = b₀ then
              (cross_off (primeSeq b₀) low high (st.next b₀)
                st.sieve st.counters).1
              else st.next b₀)
          rw [if_pos rfl]
          exact hinvN
        · exact ih2 j (by omega) h2

theorem nextPow2Go_pos : ∀ fuel n, 1 ≤ nextPow2Go fuel n := by
  intro fuel
  induction fuel with
  | zero => intro n; exact le_refl 1
  | succ fuel ih =>
    intro n
    rw [nextPow2Go]
    by_cases h : n ≤ 1
    · rw [if_pos h]
    · rw [if_neg h]
      have := ih ((n + 1) / 2)
      omega

theorem nextPow2_pos (n : ℕ) : 1 ≤ nextPow2 n := nextPow2Go_pos n n

/-- The `goto next_segment` guards are monotone in the segment base: once a
b is skipped, it stays skipped in every later segment (so if b is processed
at base low, it was processed at every earlier base). -/
theorem segStop_mono {x y z piSqrty b low low' : ℕ} (hb : 1 ≤ b)
    (h1 : 1 ≤ low') (hle : low' ≤ low)
    (hs : segStop x y z piSqrty low b = false) :
    segStop x y z piSqrty low' b = false := by
  have hp2 : 2 ≤ primeSeq b := primeSeq_two_le hb
  have hdiv : x / (primeSeq b * low) ≤ x / (primeSeq b * low') :=
    Nat.div_le_div_left (Nat.mul_le_mul_left _ hle)
      (Nat.mul_pos (by omega) (by omega))
  rw [segStop] at hs ⊢
  by_cases hby : b ≤ piSqrty
  · rw [if_pos hby] at hs ⊢
    rw [decide_eq_false_iff_not] at hs ⊢
    intro hc
    apply hs
    have hmm : min (x / (primeSeq b * low)) y ≤
        min (x / (primeSeq b * low')) y := min_le_min hdiv (le_refl y)
    omega
  · rw [if_neg hby] at hs ⊢
    rw [decide_eq_false_iff_not] at hs ⊢
    intro hc
    apply hs
    have hmm : min (x / (primeSeq b * low)) (min (z / primeSeq b) y) ≤
        min (x / (primeSeq b * low')) (min (z / primeSeq b) y) :=
      min_le_min hdiv (le_refl _)
    have hpc := primeCount_mono hmm
    have hps := primeSeq_strictMono.monotone hpc
    omega

theorem processSegment_spec (x y z c piSqrty piSqrtz limit segSize low : ℕ)
    (st : SieveState) (b : ℕ)
    (hc3 : 3 ≤ c) (hseg : 1 ≤ segSize)
    (hb : c + 1 ≤ b) (hbmax : b ≤ max piSqrty piSqrtz)
    (hfull : low + segSize ≤ limit)
    (hns : ∀ b', c + 1 ≤ b' → b' ≤ b →
      segStop x y z piSqrty low b' = false)
    (hnext : ∀ j, 2 ≤ j → j ≤ b → isNextInv (primeSeq j) low (st.next j)) :
    (processSegment x y z c piSqrty piSqrtz limit segSize low st).phi b =
      st.phi b + ((Finset.Ico low (low + segSize)).filter
        (fun v => coprimeFirst (b - 1) v)).card ∧
    (∀ j, 2 ≤ j → j ≤ b →
      isNextInv (primeSeq j) (low + segSize)
        ((processSegment x y z c piSqrty piSqrtz limit segSize
          low st).next j)) := by
  have hhigh : min (low + segSize) limit = low + segSize := min_eq_left hfull
  have hlh : low < low + segSize := by omega
  have hunfold : processSegment x y z c piSqrty piSqrtz limit segSize low st =
      segMainGo x y z piSqrty low (low + segSize)
        (max piSqrty piSqrtz - c) (c + 1)
        { sieve := (segPrecrossGo low (low + segSize) (c - 1) 2
            (bitSieveFill low (low + segSize)) st.next).1
          counters := prefixCount (segPrecrossGo low (low + segSize) (c - 1) 2
            (bitSieveFill low (low + segSize)) st.next).1
          next := (segPrecrossGo low (low + segSize) (c - 1) 2
            (bitSieveFill low (low + segSize)) st.next).2
          phi := st.phi } := by
    rw [processSegment, hhigh]
  rw [hunfold]
  obtain ⟨pchar, pnext, pframe⟩ := segPrecrossGo_spec low (low + segSize)
    (by omega) (c - 1) 2 (bitSieveFill low (low + segSize)) st.next
    (by omega)
    (by
      rw [show max 3 (2 - 1) = 3 by decide]
      exact bitSieveFill_char low (low + segSize))
    (fun j h1 h2 => hnext j h1 (by omega))
  rw [show (2 : ℕ) + (c - 1) = c + 1 by omega] at pnext pframe
  rw [show max 3 (2 + (c - 1) - 1) = c by omega] at pchar
  have pchar' : ∀ t, (segPrecrossGo low (low + segSize) (c - 1) 2
      (bitSieveFill low (low + segSize)) st.next).1 t = true ↔
      (low + t < low + segSize ∧ coprimeFirst (c + 1 - 1) (low + t)) := by
    rw [show c + 1 - 1 = c from rfl]
    exact pchar
  obtain ⟨m1, m2⟩ := segMainGo_spec x y z piSqrty low (low + segSize) hlh b
    (max piSqrty piSqrtz - c) (c + 1)
    { sieve := (segPrecrossGo low (low + segSize) (c - 1) 2
        (bitSieveFill low (low + segSize)) st.next).1
      counters := prefixCount (segPrecrossGo low (low + segSize) (c - 1) 2
        (bitSieveFill low (low + segSize)) st.next).1
      next := (segPrecrossGo low (low + segSize) (c - 1) 2
        (bitSieveFill low (low + segSize)) st.next).2
      phi := st.phi }
    (by omega) hb (by omega) hns pchar' (fun i => rfl)
    (fun j h1 h2 => by
      show isNextInv (primeSeq j) low
        ((segPrecrossGo low (low + segSize) (c - 1) 2
          (bitSieveFill low (low + segSize)) st.next).2 j)
      rw [pframe j (Or.inr (by omega))]
      exact hnext j (by omega) h2)
  refine ⟨m1, ?_⟩
  intro j h1 h2
  by_cases hjc : c + 1 ≤ j
  · exact m2 j hjc h2
  · obtain ⟨_, hf2⟩ := segMainGo_frame x y z piSqrty low (low + segSize)
      (max piSqrty piSqrtz - c) (c + 1)
      { sieve := (segPrecrossGo low (low + segSize) (c - 1) 2
          (bitSieveFill low (low + segSize)) st.next).1
        counters := prefixCount (segPrecrossGo low (low + segSize) (c - 1) 2
          (bitSieveFill low (low + segSize)) st.next).1
        next := (segPrecrossGo low (low + segSize) (c - 1) 2
          (bitSieveFill low (low + segSize)) st.next).2
        phi := st.phi } j (by omega)
    rw [hf2]
    exact pnext j h1 (by omega)

theorem runSegs_phi (x y z c piSqrty piSqrtz limit segSize b : ℕ)
    (hc3 : 3 ≤ c) (hseg : 1 ≤ segSize) (hb : c + 1 ≤ b)
    (hbmax : b ≤ max piSqrty piSqrtz) :
    ∀ s, 1 + s * segSize < limit →
      (∀ b', c + 1 ≤ b' → b' ≤ b →
        segStop x y z piSqrty (1 + s * segSize) b' = false) →
      ((runSegs x y z c piSqrty piSqrtz limit segSize s).phi b =
        legendrePhi (s * segSize) (b - 1) ∧
      (∀ j, 2 ≤ j → j ≤ b →
        isNextInv (primeSeq j) (1 + s * segSize)
          ((runSegs x y z c piSqrty piSqrtz limit segSize s).next j))) := by
  intro s
  induction s with
  | zero =>
    intro hlim hproc
    refine ⟨?_, ?_⟩
    · show (0 : ℕ) = legendrePhi (0 * segSize) (b - 1)
      rw [show (0 : ℕ) * segSize = 0 by omega, legendrePhi_x_zero]
    · intro j h1 h2
      have hp2 : 2 ≤ primeSeq j := primeSeq_two_le (by omega)
      show isNextInv (primeSeq j) (1 + 0 * segSize) (primeSeq j)
      exact ⟨Nat.mod_eq_of_lt (by omega), by omega, by omega⟩
  | succ s ih =>
    intro hlim hproc
    have hexp : (s + 1) * segSize = s * segSize + segSize := by ring
    have hbase : 1 + s * segSize < limit := by omega
    have hproc' : ∀ b', c + 1 ≤ b' → b' ≤ b →
        segStop x y z piSqrty (1 + s * segSize) b' = false := by
      intro b' hb1 hb2
      exact segStop_mono (by omega) (by omega) (by omega) (hproc b' hb1 hb2)
    obtain ⟨ih1, ih2⟩ := ih hbase hproc'
    have hunfold : runSegs x y z c piSqrty piSqrtz limit segSize (s + 1) =
        processSegment x y z c piSqrty piSqrtz limit segSize
          (1 + s * segSize)
          (runSegs x y z c piSqrty piSqrtz limit segSize s) := by
      rw [runSegs, if_pos hbase]
    rw [hunfold]
    have hfull : (1 + s * segSize) + segSize ≤ limit := by omega
    obtain ⟨p1, p2⟩ := processSegment_spec x y z c piSqrty piSqrtz limit
      segSize (1 + s * segSize) _ b hc3 hseg hb hbmax hfull hproc' ih2
    refine ⟨?_, ?_⟩
    · rw [p1, ih1]
      have hw := @windowCard_legendre (1 + s * segSize) segSize (b - 1)
        (by omega)
      rw [show (1 + s * segSize) - 1 = s * segSize by omega] at hw
      rw [show (1 + s * segSize) + segSize - 1 = (s + 1) * segSize
        by omega] at hw
      omega
    · intro j h1 h2
      have hinv := p2 j h1 h2
      rw [show (1 + s * segSize) + segSize = 1 + (s + 1) * segSize
        by ring] at hinv
      exact hinv

theorem isqrt_400 : isqrt 400 = 20 := by
  rw [isqrt]
  have h1 : 20 ≤ Nat.sqrt 400 := Nat.le_sqrt.mpr (by norm_num)
  have h2 : Nat.sqrt 400 < 21 := by
    rw [Nat.sqrt_lt']
    norm_num
  omega

theorem isqrt_529 : isqrt 529 = 23 := by
  rw [isqrt]
  have h1 : 23 ≤ Nat.sqrt 529 := Nat.le_sqrt.mpr (by norm_num)
  have h2 : Nat.sqrt 529 < 24 := by
    rw [Nat.sqrt_lt']
    norm_num
  omega

theorem isqrt_530 : isqrt 530 = 23 := by
  rw [isqrt]
  have h1 : 23 ≤ Nat.sqrt 530 := Nat.le_sqrt.mpr (by norm_num)
  have h2 : Nat.sqrt 530 < 24 := by
    rw [Nat.sqrt_lt']
    norm_num
  omega

/-- C6 (counterexample): x = 211600, y = 400, z = 529, c = 7 (so
pi_sqrty = 8, pi_sqrtz = 9, segment_size = 32).  Segment 2 = [33, 65) does
begin processing b = 8 (its guard is false), and at that moment
phi[8] = 5 = #survivors of primes[1..7] in [1, 33), whereas the claim
requires #survivors of primes[1..8] in [1, 33) = 4 (the prime 19 itself is
only removed by `cross_off` *after* phi[8] is bumped). -/
theorem c6_s2_sieve_phi_counterexample :
    segStop 211600 400 529 (primeCount (isqrt 400)) 33 8 = false ∧
    (S2_sieveRun 211600 400 529 7 1).phi 8 = 5 ∧
    legendrePhi 32 8 = 4 ∧
    (S2_sieveRun 211600 400 529 7 1).phi 8 ≠ legendrePhi 32 8 := by
  rw [S2_sieveRun, show (529 : ℕ) + 1 = 530 from rfl, isqrt_400, isqrt_529,
    isqrt_530]
  refine ⟨by decide, by decide, by decide, by decide⟩

/-- C6 (amended): in S2_sieve, for every index b and every segment
[low, high): if the segment exists (low < limit) and begins processing b
with b not skipped (no iteration b' ≤ b of this segment hits the
`goto next_segment` guard), then at that moment the accumulator phi[b]
equals the number of surviving integers in [1, low) after removing the
multiples of primes[1..b−1] — not primes[1..b]: the query
`phi[b] += cnt_query(...)` runs *before* `cross_off(primes[b], …)` in each
segment.  Context: c ≥ 3 (the wheel covers the first three primes) and
c + 1 ≤ b ≤ max(π(√y), π(min(√z, y))). -/
theorem c6_s2_sieve_phi (x y z c b s : ℕ) (hc3 : 3 ≤ c)
    (hb : c + 1 ≤ b)
    (hbmax : b ≤ max (primeCount (isqrt y)) (primeCount (min (isqrt z) y)))
    (hlim : 1 + s * nextPow2 (isqrt (z + 1)) < z + 1)
    (hproc : ∀ b', c + 1 ≤ b' → b' ≤ b →
      segStop x y z (primeCount (isqrt y))
        (1 + s * nextPow2 (isqrt (z + 1))) b' = false) :
    (S2_sieveRun x y z c s).phi b =
      legendrePhi (s * nextPow2 (isqrt (z + 1))) (b - 1) :=
  (runSegs_phi x y z c (primeCount (isqrt y))
    (primeCount (min (isqrt z) y)) (z + 1) (nextPow2 (isqrt (z + 1))) b
    hc3 (nextPow2_pos _) hb hbmax s hlim hproc).1

/-- Witness for C6 (amended) at x = 211600, y = 400, z = 529, c = 7,
b = 8, segment s = 1 (base low = 33). -/
theorem c6_s2_sieve_phi_witness :
    ((3 : ℕ) ≤ 7 ∧ (7 : ℕ) + 1 ≤ 8 ∧
      8 ≤ max (primeCount (isqrt 400)) (primeCount (min (isqrt 529) 400)) ∧
      1 + 1 * nextPow2 (isqrt (529 + 1)) < 529 + 1) ∧
    (S2_sieveRun 211600 400 529 7 1).phi 8 =
      legendrePhi (1 * nextPow2 (isqrt (529 + 1))) (8 - 1) :=
  ⟨⟨by decide, by decide,
    by rw [isqrt_400, isqrt_529]; decide,
    by rw [show (529 : ℕ) + 1 = 530 from rfl, isqrt_530]; decide⟩,
    c6_s2_sieve_phi 211600 400 529 7 8 1 (by decide) (by decide)
      (by rw [isqrt_400, isqrt_529]; decide)
      (by rw [show (529 : ℕ) + 1 = 530 from rfl, isqrt_530]; decide)
      (fun b' h1 h2 => by
        have hb8 : b' = 8 := by omega
        rw [hb8, isqrt_400, show (529 : ℕ) + 1 = 530 from rfl, isqrt_530]
        decide)⟩

end Primecount
